import Mathlib

/-!
# Verification of the PatmatchDocker core algorithms

Shallow embedding of the core algorithms of the repository:

* `www/app/fasta_utils.py` — sequence index generation and the
  binary-search offset resolver;
* `www/app/pattern_converter.py` — the Patmatch pattern compiler
  (repetition expansion and the reverse-complement transform);
* `www/app/fuzzy_matcher.py` — the approximate matcher wrapper;
* `www/app/restriction_service.py` — restriction enzyme search,
  cut sites and fragment sizes;
* `www/app/patmatch_service.py` — hit post-processing and anchors.

Python strings are modelled as `List Char`; Python byte offsets and
lengths as `Nat`; Python `int` values that can be negative as `Int`.
A Python list used as a stack (`append`/`pop` at the right end) is
modelled as a Lean `List` with its head at the stack top, i.e. the
stack holding the characters of a string right-to-left.
-/

namespace FastaUtils

/-- Loop of `get_name_offset` (fasta_utils.py, lines 69-87): binary search
over the sorted offset table `T` with bracket `[low, high]`.  `T.getD i 0`
models Python's `record_offset_list[middle]` (indices stay in bounds on
every path actually taken).  The bracket shrinks by at least one per
iteration, so any fuel above `high - low` reproduces the `while` loop
exactly; `get_name_offset` passes `T.length`. -/
def get_name_offset_loop (T : List Nat) (offset : Nat) : Nat → Nat → Nat → Nat
  | 0, low, _ => T.getD low 0
  | fuel + 1, low, high =>
    if low < high then
      let middle := (low + high) / 2
      if T.getD middle 0 = offset then offset
      else if high - low = 1 then
        if T.getD high 0 ≤ offset then T.getD high 0 else T.getD low 0
      else if T.getD middle 0 < offset then
        get_name_offset_loop T offset fuel middle high
      else get_name_offset_loop T offset fuel low (middle - 1)
    else
      T.getD low 0

/-- `get_name_offset` (fasta_utils.py, lines 55-87): binary search for the
record offset governing byte position `offset`; `0` on an empty table. -/
def get_name_offset (offset : Nat) (record_offset_list : List Nat) : Nat :=
  if record_offset_list = [] then 0
  else get_name_offset_loop record_offset_list offset record_offset_list.length
    0 (record_offset_list.length - 1)

lemma sorted_getD_mono {T : List Nat} (hs : T.Sorted (· ≤ ·))
    {i j : Nat} (hij : i ≤ j) (hj : j < T.length) :
    T.getD i 0 ≤ T.getD j 0 := by
  rcases Nat.lt_or_ge i j with h | h
  · rw [List.getD_eq_getElem T 0 (lt_trans h hj), List.getD_eq_getElem T 0 hj]
    exact List.pairwise_iff_getElem.mp hs i j (lt_trans h hj) hj h
  · have : i = j := le_antisymm hij h
    subst this; rfl

lemma mem_iff_getD {T : List Nat} {x : Nat} :
    x ∈ T ↔ ∃ i, ∃ _h : i < T.length, T.getD i 0 = x := by
  constructor
  · intro hx
    rcases List.mem_iff_getElem.mp hx with ⟨i, hi, hxi⟩
    exact ⟨i, hi, by rw [List.getD_eq_getElem T 0 hi]; exact hxi⟩
  · rintro ⟨i, hi, hxi⟩
    rw [List.getD_eq_getElem T 0 hi] at hxi
    exact hxi ▸ List.getElem_mem hi

lemma get_name_offset_loop_spec (T : List Nat) (offset : Nat)
    (hs : T.Sorted (· ≤ ·)) :
    ∀ fuel low high, high - low ≤ fuel → low ≤ high → high < T.length →
    T.getD low 0 ≤ offset →
    (∀ i, high < i → i < T.length → offset < T.getD i 0) →
    get_name_offset_loop T offset fuel low high ∈ T ∧
    get_name_offset_loop T offset fuel low high ≤ offset ∧
    ∀ x ∈ T, x ≤ offset → x ≤ get_name_offset_loop T offset fuel low high := by
  intro fuel
  induction fuel with
  | zero =>
    intro low high hfuel hlh hhl hlow hinv
    rw [get_name_offset_loop]
    have hlowhigh : low = high := by omega
    refine ⟨mem_iff_getD.mpr ⟨low, by omega, rfl⟩, hlow, ?_⟩
    intro x hx hxo
    rcases mem_iff_getD.mp hx with ⟨i, hi, rfl⟩
    rcases le_or_lt i high with hih | hih
    · calc T.getD i 0 ≤ T.getD high 0 := sorted_getD_mono hs hih hhl
        _ = T.getD low 0 := by rw [hlowhigh]
    · exact absurd (hinv i hih hi) (not_lt.mpr hxo)
  | succ n ih =>
    intro low high hfuel hlh hhl hlow hinv
    by_cases hlt : low < high
    · rw [get_name_offset_loop, if_pos hlt]
      simp only
      set middle := (low + high) / 2 with hm
      have hmlow : low ≤ middle := by omega
      have hmhigh : middle < high := by omega
      by_cases heq : T.getD middle 0 = offset
      · rw [if_pos heq]
        refine ⟨mem_iff_getD.mpr ⟨middle, by omega, heq⟩, le_refl _, ?_⟩
        intro x _ hxo; exact hxo
      · rw [if_neg heq]
        by_cases hone : high - low = 1
        · rw [if_pos hone]
          by_cases hge : T.getD high 0 ≤ offset
          · rw [if_pos hge]
            refine ⟨mem_iff_getD.mpr ⟨high, hhl, rfl⟩, hge, ?_⟩
            intro x hx hxo
            rcases mem_iff_getD.mp hx with ⟨i, hi, rfl⟩
            rcases le_or_lt i high with hih | hih
            · exact sorted_getD_mono hs hih hhl
            · exact absurd (hinv i hih hi) (not_lt.mpr hxo)
          · rw [if_neg hge]
            refine ⟨mem_iff_getD.mpr ⟨low, by omega, rfl⟩, hlow, ?_⟩
            intro x hx hxo
            rcases mem_iff_getD.mp hx with ⟨i, hi, rfl⟩
            rcases le_or_lt i low with hih | hih
            · exact sorted_getD_mono hs hih (by omega)
            · -- i ≥ low + 1 = high, so T[i] > offset
              have hih' : high ≤ i := by omega
              rcases Nat.eq_or_lt_of_le hih' with hih'' | hih''
              · exact absurd hxo (not_le.mpr (by rw [← hih'']; omega))
              · exact absurd (hinv i hih'' hi) (not_lt.mpr hxo)
        · rw [if_neg hone]
          by_cases hmid : T.getD middle 0 < offset
          · rw [if_pos hmid]
            exact ih middle high (by omega) (by omega) hhl (le_of_lt hmid) hinv
          · rw [if_neg hmid]
            have hmgt : offset < T.getD middle 0 :=
              lt_of_le_of_ne (not_lt.mp hmid) (fun h => heq h.symm)
            have hm1 : low ≤ middle - 1 := by omega
            refine ih low (middle - 1) (by omega) hm1 (by omega) hlow ?_
            intro i hi1 hi2
            have : middle ≤ i := by omega
            calc offset < T.getD middle 0 := hmgt
              _ ≤ T.getD i 0 := sorted_getD_mono hs this hi2
    · rw [get_name_offset_loop, if_neg hlt]
      have hlowhigh : low = high := by omega
      refine ⟨mem_iff_getD.mpr ⟨low, by omega, rfl⟩, hlow, ?_⟩
      intro x hx hxo
      rcases mem_iff_getD.mp hx with ⟨i, hi, rfl⟩
      rcases le_or_lt i high with hih | hih
      · calc T.getD i 0 ≤ T.getD high 0 := sorted_getD_mono hs hih hhl
          _ = T.getD low 0 := by rw [hlowhigh]
      · exact absurd (hinv i hih hi) (not_lt.mpr hxo)

end FastaUtils

namespace PatternConverter

/-- `INFINITE` (pattern_converter.py, line 14): marker for an unbounded
repetition upper limit. -/
def INFINITE : Int := -1

/-- Value of a decimal digit character, as used by Python `int` per digit. -/
def digitVal (c : Char) : Nat := c.toNat - '0'.toNat

/-- Python `int` on a string of decimal digits. -/
def digitsToNat (s : List Char) : Nat :=
  s.foldl (fun acc c => 10 * acc + digitVal c) 0

/-- `s` matches the regex `\d+`: non-empty, all decimal digits. -/
def isDigits (s : List Char) : Bool :=
  !s.isEmpty && s.all (·.isDigit)

/-- Python `str.split(',')` on a character list (empty segments kept). -/
def split_comma : List Char → List (List Char)
  | [] => [[]]
  | c :: rest =>
    match split_comma rest with
    | p :: ps => if c = ',' then [] :: p :: ps else (c :: p) :: ps
    | [] => [[c]]

/-- `s` matches the regex `^,\d+$`. -/
def matchCommaDigits : List Char → Bool
  | [] => false
  | c :: rest => c = ',' && isDigits rest

/-- `s` matches the regex `^\d+,$`. -/
def matchDigitsComma (s : List Char) : Bool :=
  s.getLast? = some ',' && isDigits s.dropLast

/-- `s` matches the regex `^\d+,\d+$`. -/
def matchDigitsCommaDigits (s : List Char) : Bool :=
  match split_comma s with
  | [d1, d2] => isDigits d1 && isDigits d2
  | _ => false

/-- `_parse_repeat_info` (pattern_converter.py, lines 161-183): parse the
text between `{` and `}` into `(lower, upper)` bounds, `upper = INFINITE`
for an absent upper bound, `(0, 0)` when nothing matches. -/
def parse_repeat_info (repeat_info : List Char) : Int × Int :=
  let parts := split_comma repeat_info
  if matchCommaDigits repeat_info then
    (0, digitsToNat (parts.getD 1 []))
  else if matchDigitsComma repeat_info then
    (digitsToNat (parts.getD 0 []), INFINITE)
  else if isDigits repeat_info then
    (digitsToNat repeat_info, digitsToNat repeat_info)
  else if matchDigitsCommaDigits repeat_info then
    (digitsToNat (parts.getD 0 []), digitsToNat (parts.getD 1 []))
  else (0, 0)

/-- `_build_repeat` (pattern_converter.py, lines 185-201): `lower` mandatory
copies, then one starred copy when `upper = INFINITE`, else `upper - lower`
optional (`?`-suffixed) copies; Python's `range` of a negative number is
empty, which `Int.toNat` reproduces. -/
def build_repeat (lower upper : Int) (pattern : List Char) : List Char :=
  (List.replicate lower.toNat pattern).flatten ++
    (if upper = INFINITE then pattern ++ ['*']
     else (List.replicate (upper - lower).toNat (pattern ++ ['?'])).flatten)

/-- Decimal digit character for `d % 10`-style values. -/
def digitChar : Nat → Char
  | 0 => '0' | 1 => '1' | 2 => '2' | 3 => '3' | 4 => '4'
  | 5 => '5' | 6 => '6' | 7 => '7' | 8 => '8' | _ => '9'

/-- Decimal representation of a natural number, most significant digit
first (the form in which bounds occur inside a `{...}` specifier). -/
def natDigitsAux : Nat → Nat → List Char
  | 0, _ => []
  | fuel + 1, n =>
    if n < 10 then [digitChar n]
    else natDigitsAux fuel (n / 10) ++ [digitChar (n % 10)]

/-- Decimal representation of a natural number, most significant digit
first (the form in which bounds occur inside a `{...}` specifier); the
fuel `n + 1` always suffices. -/
def natDigits (n : Nat) : List Char := natDigitsAux (n + 1) n

lemma natDigitsAux_fuel_irrelevant :
    ∀ n f1 f2, n < f1 → n < f2 → natDigitsAux f1 n = natDigitsAux f2 n := by
  intro n
  induction n using Nat.strong_induction_on with
  | _ n ih =>
    intro f1 f2 h1 h2
    match f1, f2 with
    | a + 1, b + 1 =>
      rw [natDigitsAux, natDigitsAux]
      by_cases h10 : n < 10
      · simp [h10]
      · have hd : n / 10 < n := Nat.div_lt_self (by omega) (by omega)
        rw [if_neg h10, if_neg h10,
          ih (n / 10) hd a b (by omega) (by omega)]

lemma natDigits_eq (n : Nat) :
    natDigits n = if n < 10 then [digitChar n]
      else natDigits (n / 10) ++ [digitChar (n % 10)] := by
  rw [natDigits, natDigitsAux]
  by_cases h10 : n < 10
  · simp [h10]
  · have hd : n / 10 < n := Nat.div_lt_self (by omega) (by omega)
    rw [if_neg h10, if_neg h10, natDigits,
      natDigitsAux_fuel_irrelevant (n / 10) n (n / 10 + 1) (by omega) (by omega)]

lemma digitChar_isDigit (d : Nat) : (digitChar d).isDigit := by
  unfold digitChar
  split <;> decide

lemma digitChar_ne_comma (d : Nat) : digitChar d ≠ ',' := by
  unfold digitChar
  split <;> decide

lemma digitVal_digitChar {d : Nat} (h : d < 10) : digitVal (digitChar d) = d := by
  interval_cases d <;> decide

lemma natDigits_ne_nil (n : Nat) : natDigits n ≠ [] := by
  rw [natDigits_eq]
  split
  · simp
  · simp

lemma natDigits_all_digit (n : Nat) : ∀ c ∈ natDigits n, c.isDigit := by
  induction n using Nat.strong_induction_on with
  | _ n ih =>
    rw [natDigits_eq]
    split
    · intro c hc
      rw [List.mem_singleton] at hc
      exact hc ▸ digitChar_isDigit n
    · intro c hc
      rcases List.mem_append.mp hc with h | h
      · exact ih (n / 10) (Nat.div_lt_self (by omega) (by omega)) c h
      · rw [List.mem_singleton] at h
        exact h ▸ digitChar_isDigit (n % 10)

lemma natDigits_no_comma (n : Nat) : ',' ∉ natDigits n := by
  intro h
  have := natDigits_all_digit n ',' h
  simp [Char.isDigit] at this

lemma isDigits_natDigits (n : Nat) : isDigits (natDigits n) := by
  have h1 := natDigits_ne_nil n
  have h2 := natDigits_all_digit n
  simp only [isDigits, Bool.and_eq_true, List.all_eq_true]
  exact ⟨by simpa using h1, fun c hc => h2 c hc⟩

lemma digitsToNat_append_singleton (a : List Char) (c : Char) :
    digitsToNat (a ++ [c]) = 10 * digitsToNat a + digitVal c := by
  simp [digitsToNat, List.foldl_append]

lemma digitsToNat_natDigits (n : Nat) : digitsToNat (natDigits n) = n := by
  induction n using Nat.strong_induction_on with
  | _ n ih =>
    rw [natDigits_eq]
    split
    · next h =>
      simp only [digitsToNat, List.foldl_cons, List.foldl_nil]
      rw [Nat.mul_zero, Nat.zero_add, digitVal_digitChar h]
    · next h =>
      rw [digitsToNat_append_singleton,
        ih (n / 10) (Nat.div_lt_self (by omega) (by omega)),
        digitVal_digitChar (Nat.mod_lt n (by omega))]
      omega

lemma split_comma_no_comma (a : List Char) (h : ',' ∉ a) :
    split_comma a = [a] := by
  induction a with
  | nil => rfl
  | cons c rest ih =>
    have hc : c ≠ ',' := fun hc => h (hc ▸ List.mem_cons_self c rest)
    have hrest : ',' ∉ rest := fun hr => h (List.mem_cons_of_mem c hr)
    rw [split_comma, ih hrest]
    simp [hc]

lemma split_comma_append (a b : List Char) (h : ',' ∉ a) :
    split_comma (a ++ ',' :: b) = a :: split_comma b := by
  induction a with
  | nil =>
    simp only [List.nil_append, split_comma]
    cases hb : split_comma b with
    | nil =>
      exfalso
      induction b with
      | nil => simp [split_comma] at hb
      | cons c rest ihb =>
        rw [split_comma] at hb
        revert hb
        cases split_comma rest with
        | nil => intro hb; simp at hb
        | cons p ps =>
          intro hb
          by_cases hc : c = ',' <;> simp [hc] at hb
    | cons p ps => simp
  | cons c rest ih =>
    have hc : c ≠ ',' := fun hc => h (hc ▸ List.mem_cons_self c rest)
    have hrest : ',' ∉ rest := fun hr => h (List.mem_cons_of_mem c hr)
    rw [List.cons_append, split_comma, ih hrest]
    simp [hc]

lemma matchCommaDigits_digits_head (a b : List Char) (ha : a ≠ [])
    (hd : ∀ c ∈ a, c.isDigit) : matchCommaDigits (a ++ b) = false := by
  cases a with
  | nil => exact absurd rfl ha
  | cons c rest =>
    have : c.isDigit := hd c (List.mem_cons_self c rest)
    have hc : c ≠ ',' := by
      intro h
      rw [h] at this
      simp [Char.isDigit] at this
    rw [List.cons_append, matchCommaDigits]
    simp [hc]

/-- Core of `_process_repetition` (pattern_converter.py, lines 113-123):
parse the text between the braces, then build the expanded repeat. -/
def expand_repeat (info : List Char) (pattern : List Char) : List Char :=
  let (lower, upper) := parse_repeat_info info
  build_repeat lower upper pattern

lemma getLast?_isDigit_of_all (a : List Char) (ha : a ≠ [])
    (hd : ∀ c ∈ a, c.isDigit) : a.getLast? ≠ some ',' := by
  rw [List.getLast?_eq_getLast a ha]
  intro h
  have hmem := List.getLast_mem ha
  have := hd _ hmem
  rw [Option.some.injEq] at h
  rw [h] at this
  simp [Char.isDigit] at this

lemma matchDigitsComma_mn (m n : Nat) :
    matchDigitsComma (natDigits m ++ ',' :: natDigits n) = false := by
  have h1 : (natDigits m ++ ',' :: natDigits n).getLast? = (natDigits n).getLast? := by
    rw [show (',' :: natDigits n) = [','] ++ natDigits n by rfl, ← List.append_assoc]
    exact List.getLast?_append_of_ne_nil _ (natDigits_ne_nil n)
  simp only [matchDigitsComma, h1]
  have := getLast?_isDigit_of_all (natDigits n) (natDigits_ne_nil n) (natDigits_all_digit n)
  simp [this]

lemma isDigits_with_comma_false (a b : List Char) :
    isDigits (a ++ ',' :: b) = false := by
  simp only [isDigits]
  have : ¬ (∀ c ∈ a ++ ',' :: b, c.isDigit) := by
    intro h
    have := h ',' (List.mem_append.mpr (Or.inr (List.mem_cons_self _ _)))
    simp [Char.isDigit] at this
  simp only [Bool.and_eq_false_iff]
  right
  rw [Bool.eq_false_iff]
  intro hall
  exact this (List.all_eq_true.mp hall)

lemma parse_mn (m n : Nat) :
    parse_repeat_info (natDigits m ++ ',' :: natDigits n) = ((m : Int), (n : Int)) := by
  have hsplit : split_comma (natDigits m ++ ',' :: natDigits n)
      = [natDigits m, natDigits n] := by
    rw [split_comma_append _ _ (natDigits_no_comma m),
      split_comma_no_comma _ (natDigits_no_comma n)]
  rw [parse_repeat_info]
  simp only [hsplit,
    matchCommaDigits_digits_head _ _ (natDigits_ne_nil m) (natDigits_all_digit m),
    matchDigitsComma_mn, isDigits_with_comma_false,
    matchDigitsCommaDigits, isDigits_natDigits, Bool.false_eq_true, if_false,
    Bool.and_self, if_true, List.getD]
  simp [digitsToNat_natDigits]

lemma parse_m_inf (m : Nat) :
    parse_repeat_info (natDigits m ++ [',']) = ((m : Int), INFINITE) := by
  have hsplit : split_comma (natDigits m ++ [',']) = [natDigits m, []] := by
    rw [show (([','] : List Char) = ',' :: []) by rfl,
      split_comma_append _ _ (natDigits_no_comma m)]
    rfl
  rw [parse_repeat_info]
  simp only [hsplit,
    matchCommaDigits_digits_head _ _ (natDigits_ne_nil m) (natDigits_all_digit m),
    Bool.false_eq_true, if_false]
  have hmdc : matchDigitsComma (natDigits m ++ [',']) = true := by
    simp [matchDigitsComma, List.getLast?_concat, List.dropLast_concat,
      isDigits_natDigits]
  simp [hmdc, digitsToNat_natDigits]

lemma parse_comma_n (n : Nat) :
    parse_repeat_info (',' :: natDigits n) = ((0 : Int), (n : Int)) := by
  have hsplit : split_comma (',' :: natDigits n) = [[], natDigits n] := by
    rw [show (',' :: natDigits n) = [] ++ ',' :: natDigits n by rfl,
      split_comma_append _ _ (by simp), split_comma_no_comma _ (natDigits_no_comma n)]
  rw [parse_repeat_info]
  have hmcd : matchCommaDigits (',' :: natDigits n) = true := by
    simp [matchCommaDigits, isDigits_natDigits]
  simp [hsplit, hmcd, digitsToNat_natDigits]

lemma build_repeat_nat (m n : Nat) (p : List Char) :
    build_repeat (m : Int) (n : Int) p
      = (List.replicate m p).flatten ++ (List.replicate (n - m) (p ++ ['?'])).flatten := by
  rw [build_repeat]
  have hne : ((n : Int) = INFINITE) = False := by
    simp only [INFINITE, eq_iff_iff, iff_false]
    omega
  simp [hne, Int.toNat_sub]

lemma build_repeat_inf (m : Nat) (p : List Char) :
    build_repeat (m : Int) INFINITE p = (List.replicate m p).flatten ++ (p ++ ['*']) := by
  rw [build_repeat]
  simp

end PatternConverter

namespace PatmatchService

/-- Anchor handling of `run_patmatch` (patmatch_service.py, lines 583-590):
a leading `<` sets `beg_match` and strips every `<`; otherwise (`elif`) a
trailing `>` sets `end_match` and strips every `>`.  Python's
`str.replace(c, '')` removes every occurrence of `c`, i.e. filters it out.
Returns `(beg_match, end_match, pattern)`. -/
def run_patmatch_anchors (pattern : List Char) : Nat × Nat × List Char :=
  if pattern.head? = some '<' then
    (1, 0, pattern.filter (· ≠ '<'))
  else if pattern.getLast? = some '>' then
    (0, 1, pattern.filter (· ≠ '>'))
  else (0, 0, pattern)

lemma exists_concat_of_getLast {α : Type} {l : List α} {a : α}
    (h : l.getLast? = some a) : ∃ l', l = l' ++ [a] := by
  induction l with
  | nil => simp at h
  | cons x xs ih =>
    cases xs with
    | nil =>
      simp only [List.getLast?_singleton, Option.some.injEq] at h
      exact ⟨[], by rw [h]; rfl⟩
    | cons y ys =>
      rw [List.getLast?_cons_cons] at h
      obtain ⟨l', hl'⟩ := ih h
      exact ⟨x :: l', by rw [List.cons_append, hl']⟩

end PatmatchService

namespace FuzzyMatcher

/-- `MatchResult` (fuzzy_matcher.py, lines 11-16).  `end` is a Lean
keyword, so the field is called `stop`. -/
structure MatchResult where
  start : Nat
  stop : Nat
  matched_text : List Char
deriving DecidableEq, Repr

/-- Constructor arguments of `FuzzyMatcher` (fuzzy_matcher.py, lines
26-48). -/
structure Matcher where
  max_errors : Nat
  allow_insertions : Bool
  allow_deletions : Bool
  allow_substitutions : Bool
  case_insensitive : Bool
deriving DecidableEq, Repr

/-- `FuzzyMatcher._build_fuzzy_pattern` (fuzzy_matcher.py, lines 50-84):
wrap the pattern with the `regex` module's fuzzy error specification;
unchanged when `max_errors == 0` or no error kind is enabled. -/
def build_fuzzy_pattern (m : Matcher) (pattern : List Char) : List Char :=
  if m.max_errors = 0 then pattern
  else
    let error_spec : List (List Char) :=
      if m.allow_insertions && m.allow_deletions && m.allow_substitutions then
        ['e' :: '<' :: '=' :: PatternConverter.natDigits m.max_errors]
      else
        (if m.allow_insertions then
          ['i' :: '<' :: '=' :: PatternConverter.natDigits m.max_errors] else []) ++
        (if m.allow_deletions then
          ['d' :: '<' :: '=' :: PatternConverter.natDigits m.max_errors] else []) ++
        (if m.allow_substitutions then
          ['s' :: '<' :: '=' :: PatternConverter.natDigits m.max_errors] else [])
    if error_spec ≠ [] then
      let error_str := (error_spec.intersperse [',']).flatten
      '(' :: '?' :: 'b' :: ')' :: '(' :: pattern ++ [')', '{'] ++ error_str ++ ['}']
    else pattern

/-- Add `byte_offset` to a raw match, as in the `MatchResult(...)`
construction inside `FuzzyMatcher.search`. -/
def add_offset (byte_offset : Nat) (r : MatchResult) : MatchResult :=
  { r with start := r.start + byte_offset, stop := r.stop + byte_offset }

/-- `FuzzyMatcher.search` (fuzzy_matcher.py, lines 86-122).  The external
`regex` engine is abstracted as `finditer pattern text`, which returns
`none` exactly when `regex.finditer` raises `regex.error` for that pattern
(a compile-time failure, before any match is produced); the
case-insensitivity flag and `overlapped=True` are identical in the two
call sites, so they are folded into the oracle. -/
def search (finditer : List Char → List Char → Option (List MatchResult))
    (m : Matcher) (pattern text : List Char) (byte_offset : Nat) :
    List MatchResult :=
  let fuzzy_pattern := build_fuzzy_pattern m pattern
  match finditer fuzzy_pattern text with
  | some ms => ms.map (add_offset byte_offset)
  | none =>
    match finditer pattern text with
    | some ms => ms.map (add_offset byte_offset)
    | none => []

/-- Exact matching of an (already expanded) pattern: run the same engine
directly on the pattern, with no fuzzy error specification.  This is the
spec side of the `maxErrors = 0` refinement claim. -/
def exact_search (finditer : List Char → List Char → Option (List MatchResult))
    (pattern text : List Char) (byte_offset : Nat) : List MatchResult :=
  match finditer pattern text with
  | some ms => ms.map (add_offset byte_offset)
  | none => []

end FuzzyMatcher

namespace RestrictionService

/-- `EnzymeInfo` (restriction_service.py, lines 13-19).  `offset` and
`overhang` are stored as the integers that `load_enzymes` parses out of
the definitions file. -/
structure EnzymeInfo where
  name : List Char
  offset : Int
  pattern : List Char
  overhang : Int
deriving DecidableEq, Repr

/-- `CutSite` (restriction_service.py, lines 22-27); `end` is a Lean
keyword, so the field is called `stop`. -/
structure CutSite where
  start : Nat
  stop : Nat
  strand : List Char
deriving DecidableEq, Repr

/-- Character semantics of the regex that `_convert_pattern_to_regex`
(restriction_service.py, lines 33-63) produces from an uppercased IUPAC
pattern: each ambiguity code becomes its character class, every other
character matches literally. -/
def iupac_char_match (p c : Char) : Bool :=
  match p with
  | 'R' => c = 'A' || c = 'G'
  | 'Y' => c = 'C' || c = 'T'
  | 'S' => c = 'G' || c = 'C'
  | 'W' => c = 'A' || c = 'T'
  | 'M' => c = 'A' || c = 'C'
  | 'K' => c = 'G' || c = 'T'
  | 'V' => c = 'A' || c = 'C' || c = 'G'
  | 'H' => c = 'A' || c = 'C' || c = 'T'
  | 'D' => c = 'A' || c = 'G' || c = 'T'
  | 'B' => c = 'C' || c = 'G' || c = 'T'
  | 'N' => c = 'A' || c = 'C' || c = 'G' || c = 'T'
  | _ => p = c

/-- `str.maketrans('ATCGRYSWMKVHDB', 'TAGCYRSWKMBDHV')` of
`_get_complement` (restriction_service.py, lines 65-68). -/
def complement_char (c : Char) : Char :=
  match c with
  | 'A' => 'T' | 'T' => 'A' | 'C' => 'G' | 'G' => 'C'
  | 'R' => 'Y' | 'Y' => 'R' | 'S' => 'S' | 'W' => 'W'
  | 'M' => 'K' | 'K' => 'M' | 'V' => 'B' | 'H' => 'D'
  | 'D' => 'H' | 'B' => 'V'
  | c => c

/-- `_get_complement` (restriction_service.py, lines 65-68). -/
def get_complement (seq : List Char) : List Char :=
  (seq.map Char.toUpper).map complement_char

/-- `_get_reverse_complement` (restriction_service.py, lines 70-72). -/
def get_reverse_complement (seq : List Char) : List Char :=
  (get_complement seq).reverse

/-- The (fixed-width) IUPAC pattern matches `text` at position `i`. -/
def matches_at (pattern text : List Char) (i : Nat) : Bool :=
  decide (i + pattern.length ≤ text.length) &&
  (List.range pattern.length).all
    (fun j => iupac_char_match (pattern.getD j ' ') (text.getD (i + j) ' '))

/-- Scan of `regex.finditer` for a fixed-width pattern: leftmost,
non-overlapping match start positions from position `i` on.  The fuel
argument only bounds the recursion; `text.length + 1` always suffices. -/
def finditer_aux (pattern text : List Char) : Nat → Nat → List Nat
  | 0, _ => []
  | fuel + 1, i =>
    if i + pattern.length ≤ text.length then
      if matches_at pattern text i then
        i :: finditer_aux pattern text fuel (i + max 1 pattern.length)
      else finditer_aux pattern text fuel (i + 1)
    else []

/-- All `regex.finditer` match start positions of a fixed-width pattern. -/
def finditer_starts (pattern text : List Char) : List Nat :=
  finditer_aux pattern text (text.length + 1) 0

/-- `search_pattern` (restriction_service.py, lines 116-149): Watson-strand
matches as 1-indexed `(start, end)` pairs, then reverse-complement
(Crick-strand) matches with the positions swapped. -/
def search_pattern (pattern sequence : List Char) (search_complement : Bool) :
    List CutSite :=
  let seqU := sequence.map Char.toUpper
  let patU := pattern.map Char.toUpper
  let watson := (finditer_starts patU seqU).map
    (fun s => CutSite.mk (s + 1) (s + patU.length) ['w','a','t','s','o','n'])
  let crick :=
    if search_complement then
      let rcU := (get_reverse_complement pattern).map Char.toUpper
      (finditer_starts rcU seqU).map
        (fun s => CutSite.mk (s + rcU.length) (s + 1) ['c','r','i','c','k'])
    else []
  watson ++ crick

/-- Python dict assignment `d[k] = v`: overwrite in place, else append. -/
def dict_insert {κ α : Type} [DecidableEq κ] (k : κ) (v : α) :
    List (κ × α) → List (κ × α)
  | [] => [(k, v)]
  | (k', v') :: rest =>
    if k' = k then (k, v) :: rest else (k', v') :: dict_insert k v rest

/-- Python `d.get(k, dflt)`. -/
def dict_get {κ α : Type} [DecidableEq κ] (d : List (κ × α)) (k : κ) (dflt : α) : α :=
  match d.find? (fun kv => kv.1 = k) with
  | some kv => kv.2
  | none => dflt

/-- Python string `<` comparison: lexicographic by code point. -/
def lex_le : List Char → List Char → Bool
  | [], _ => true
  | _ :: _, [] => false
  | a :: as_, b :: bs =>
    if a < b then true else if b < a then false else lex_le as_ bs

/-- Python `needle in haystack` on strings. -/
def contains_sub (needle haystack : List Char) : Bool :=
  (List.range (haystack.length + 1)).any
    (fun i => needle.isPrefixOf (haystack.drop i))

/-- Accumulator of the per-enzyme search loop of `run_restriction_search`
(restriction_service.py, lines 301-318).  `offset_map`/`overhang_map` hold
the integers whose `str`/`int` round-trip in the source is the identity;
`data_hash` holds the `(start, end)` pairs whose `':'`/`','` string
serialization between the phases is likewise invertible and modelled as
the identity. -/
structure SearchAccum where
  data_hash : List (List Char × List (Nat × Nat))
  offset_map : List (List Char × Int)
  overhang_map : List (List Char × Int)
  recognition_seq_map : List (List Char × List Char)
  not_cut_enzymes : List (List Char)
deriving Repr

/-- Condition of restriction_service.py, line 316: the enzyme-class
selections under which a zero-hit enzyme is collected into
`not_cut_enzymes`. -/
def collects_no_cut (enzyme_type : List Char) : Prop :=
  enzyme_type.map Char.toLower = ['a', 'l', 'l'] ∨
  enzyme_type.map Char.toLower = [] ∨
  (['e','n','z','y','m','e','s',' ','t','h','a','t',' ','d','o',' ','n','o','t']).isPrefixOf
    (enzyme_type.map Char.toLower)

instance (enzyme_type : List Char) : Decidable (collects_no_cut enzyme_type) := by
  rw [collects_no_cut]
  infer_instance

/-- One iteration of the enzyme loop (restriction_service.py, lines
307-318). -/
def search_step (sequence enzyme_type : List Char) (st : SearchAccum)
    (enzyme : EnzymeInfo) : SearchAccum :=
  let sites := search_pattern enzyme.pattern sequence true
  let st :=
    { st with
      offset_map := dict_insert enzyme.name enzyme.offset st.offset_map
      overhang_map := dict_insert enzyme.name enzyme.overhang st.overhang_map
      recognition_seq_map :=
        dict_insert enzyme.name enzyme.pattern st.recognition_seq_map }
  if sites ≠ [] then
    { st with data_hash :=
        dict_insert enzyme.name (sites.map fun s => (s.start, s.stop)) st.data_hash }
  else if collects_no_cut enzyme_type then
    if enzyme.name ∈ st.not_cut_enzymes then st
    else { st with not_cut_enzymes := st.not_cut_enzymes ++ [enzyme.name] }
  else st

/-- Per-enzyme condition of the cut-count filter (restriction_service.py,
lines 330-346): `w_cut` counts the Watson pairs (`beg < end`), `c_cut`
the rest; keep an enzyme only if one strand's cut count equals the limit
and the other does not exceed it. -/
def cut_keep (cut_limit : Nat) (kv : List Char × List (Nat × Nat)) : Prop :=
  let w_cut := kv.2.countP (fun p => p.1 < p.2)
  let c_cut := kv.2.countP (fun p => ¬ p.1 < p.2)
  (c_cut = cut_limit ∧ w_cut ≤ cut_limit) ∨
    (w_cut = cut_limit ∧ c_cut ≤ cut_limit)

instance (cut_limit : Nat) (kv : List Char × List (Nat × Nat)) :
    Decidable (cut_keep cut_limit kv) := by
  rw [cut_keep]
  infer_instance

/-- Cut-count filter (restriction_service.py, lines 326-348). -/
def cut_filter (cut_limit : Nat)
    (data_hash : List (List Char × List (Nat × Nat))) :
    List (List Char × List (Nat × Nat)) :=
  data_hash.foldl
    (fun acc kv => if cut_keep cut_limit kv then acc ++ [kv] else acc) []

/-- Watson/Crick cut-position collection (restriction_service.py, lines
362-388): Watson pairs (`beg < end`) cut at `beg + offset - 1`, Crick
pairs at (swapped) `beg + offset + overhang - 1`; each of `cut_w`,
`cut_c`, `cut_all` is deduplicated by a `not in` check before appending. -/
def collect_cuts (offset overhang : Int) (positions : List (Nat × Nat)) :
    List Int × List Int × List Int :=
  positions.foldl
    (fun (st : List Int × List Int × List Int) p =>
      let (cut_w, cut_c, cut_all) := st
      let beg : Int := p.1
      let fin : Int := p.2
      if beg < fin then
        let cut_site := beg + offset - 1
        (if cut_site ∈ cut_w then cut_w else cut_w ++ [cut_site], cut_c,
         if cut_site ∈ cut_all then cut_all else cut_all ++ [cut_site])
      else
        let cut_site := fin + offset + overhang - 1
        (cut_w, if cut_site ∈ cut_c then cut_c else cut_c ++ [cut_site],
         if cut_site ∈ cut_all then cut_all else cut_all ++ [cut_site]))
    ([], [], [])

/-- Fragment loop (restriction_service.py, lines 393-402): difference
consecutive sorted cut positions starting from 0, skipping zero sizes and
sizes already seen (`found` models the Python set). -/
def cut_fragments_aux : List Int → Int → List Int → List Int → List Int
  | [], _, _, frags => frags
  | c :: rest, pre, found, frags =>
    let size := c - pre
    if size ≠ 0 ∧ size ∉ found then
      cut_fragments_aux rest c (found ++ [size]) (frags ++ [size])
    else cut_fragments_aux rest c found frags

/-- `sorted(cut_all)` followed by the fragment loop (restriction_service.py,
lines 390-402). -/
def cut_fragments (cut_all : List Int) : List Int :=
  cut_fragments_aux (List.insertionSort (fun a b => a ≤ b) cut_all) 0 [] []

/-- One entry of the result `data` dict (restriction_service.py, lines
409-418); the `', '.join` serializations of the integer lists are
invertible and the lists are kept as lists. -/
structure EnzymeResult where
  cut_site_on_watson_strand : List Int
  cut_site_on_crick_strand : List Int
  fragment_size : List Int
  fragment_size_in_real_order : List Int
  offset : Int
  overhang : Int
  recognition_seq : List Char
  enzyme_type : List Char
deriving DecidableEq, Repr

/-- Per-enzyme result construction (restriction_service.py, lines
362-418). -/
def build_result (seq_len : Int) (st : SearchAccum) (name : List Char)
    (enzyme_type_map : List Char → List Char) : EnzymeResult :=
  let offset := dict_get st.offset_map name 0
  let overhang := dict_get st.overhang_map name 0
  let positions := dict_get st.data_hash name []
  let (cut_w, cut_c, cut_all) := collect_cuts offset overhang positions
  let frags := cut_fragments (cut_all ++ [seq_len])
  { cut_site_on_watson_strand := List.insertionSort (fun a b => a ≤ b) cut_w
    cut_site_on_crick_strand := List.insertionSort (fun a b => a ≤ b) cut_c
    fragment_size := (List.insertionSort (fun a b => a ≤ b) frags).reverse
    fragment_size_in_real_order := frags
    offset := offset
    overhang := overhang
    recognition_seq := dict_get st.recognition_seq_map name []
    enzyme_type := enzyme_type_map name }

/-- `run_restriction_search` (restriction_service.py, lines 280-420).
`enzymes` stands for `load_enzymes(enzyme_type)` and `enzyme_type_map`
for the classification loaded by `get_enzyme_types` — both come from data
files outside the embedded code.  Returns `(data, not_cut_enzymes)`; the
error-message component is constantly `''` in the source and dropped. -/
def run_restriction_search (sequence : List Char) (enzyme_type : List Char)
    (enzymes : List EnzymeInfo) (enzyme_type_map : List Char → List Char) :
    List (List Char × EnzymeResult) × List (List Char) :=
  let seq_len : Int := sequence.length
  let st := enzymes.foldl (search_step sequence enzyme_type)
    (SearchAccum.mk [] [] [] [] [])
  let not_cut := List.insertionSort (fun a b => lex_le a b = true) st.not_cut_enzymes
  if (['e','n','z','y','m','e','s',' ','t','h','a','t',' ','d','o',' ','n','o','t']).isPrefixOf
      enzyme_type then
    ([], not_cut)
  else
    let data_hash :=
      if contains_sub ['c','u','t'] enzyme_type then
        cut_filter (if contains_sub ['t','w','i','c','e'] enzyme_type then 2 else 1)
          st.data_hash
      else st.data_hash
    let st := { st with data_hash := data_hash }
    let keys := List.insertionSort (fun a b => lex_le a b = true)
      (data_hash.map Prod.fst)
    let data := keys.foldl
      (fun acc name =>
        if (contains_sub ['o','v','e','r','h','a','n','g'] enzyme_type ∨
            contains_sub ['b','l','u','n','t'] enzyme_type) ∧
            enzyme_type_map name ≠ enzyme_type then acc
        else acc ++ [(name, build_result seq_len st name enzyme_type_map)]) []
    (data, not_cut)

/-- Consecutive differences of a list, starting from `pre` — the sizes the
fragment loop computes before any skipping. -/
def consec_diffs (pre : Int) : List Int → List Int
  | [] => []
  | c :: rest => (c - pre) :: consec_diffs c rest

lemma consec_diffs_sum (l : List Int) : ∀ pre : Int,
    (consec_diffs pre l).sum = l.getLastD pre - pre := by
  induction l with
  | nil => intro pre; simp [consec_diffs]
  | cons c rest ih =>
    intro pre
    rw [consec_diffs, List.sum_cons, ih c, List.getLastD_cons]
    ring

lemma getLastD_mem : ∀ (l : List Int) (d : Int), l ≠ [] → l.getLastD d ∈ l := by
  intro l
  induction l with
  | nil => intro d h; exact absurd rfl h
  | cons c rest ih =>
    intro d _
    rw [List.getLastD_cons]
    cases hr : rest with
    | nil => simp
    | cons r rs =>
      right
      rw [← hr]
      exact ih c (by rw [hr]; simp)

lemma sorted_le_getLastD : ∀ (l : List Int), l.Sorted (· ≤ ·) →
    ∀ d : Int, ∀ x ∈ l, x ≤ l.getLastD d := by
  intro l
  induction l with
  | nil => intro _ d x hx; simp at hx
  | cons c rest ih =>
    intro hs d x hx
    rw [List.sorted_cons] at hs
    rw [List.getLastD_cons]
    rcases List.mem_cons.mp hx with rfl | hx'
    · cases rest with
      | nil => simp
      | cons r rs =>
        have hmem : (r :: rs).getLastD x ∈ (r :: rs) := getLastD_mem _ x (by simp)
        exact hs.1 _ hmem
    · exact ih hs.2 c x hx'

lemma cut_fragments_aux_sum :
    ∀ (l : List Int) (pre : Int) (found frags : List Int),
    ((consec_diffs pre l).filter (· ≠ 0)).Nodup →
    (∀ d ∈ (consec_diffs pre l).filter (· ≠ 0), d ∉ found) →
    (cut_fragments_aux l pre found frags).sum = frags.sum + (consec_diffs pre l).sum := by
  intro l
  induction l with
  | nil => intro pre found frags _ _; simp [cut_fragments_aux, consec_diffs]
  | cons c rest ih =>
    intro pre found frags hnd hdisj
    rw [cut_fragments_aux]
    by_cases hz : c - pre = 0
    · have hcond : ¬ (c - pre ≠ 0 ∧ c - pre ∉ found) := by
        intro hcon; exact hcon.1 hz
      rw [if_neg hcond]
      have hfilter : (consec_diffs pre (c :: rest)).filter (· ≠ 0)
          = (consec_diffs c rest).filter (· ≠ 0) := by
        rw [consec_diffs, List.filter_cons]
        simp [hz]
      rw [hfilter] at hnd hdisj
      rw [ih c found frags hnd hdisj, consec_diffs, List.sum_cons, hz]
      ring
    · have hfilter : (consec_diffs pre (c :: rest)).filter (· ≠ 0)
          = (c - pre) :: (consec_diffs c rest).filter (· ≠ 0) := by
        rw [consec_diffs, List.filter_cons]
        simp [hz]
      rw [hfilter] at hnd hdisj
      have hnf : c - pre ∉ found := hdisj _ (List.mem_cons_self _ _)
      rw [if_pos ⟨hz, hnf⟩]
      have hnd' := (List.nodup_cons.mp hnd).2
      have hnotin := (List.nodup_cons.mp hnd).1
      have hdisj' : ∀ d ∈ (consec_diffs c rest).filter (· ≠ 0),
          d ∉ found ++ [c - pre] := by
        intro d hd
        rw [List.mem_append, List.mem_singleton]
        rintro (hdf | rfl)
        · exact hdisj d (List.mem_cons_of_mem _ hd) hdf
        · exact hnotin hd
      rw [ih c (found ++ [c - pre]) (frags ++ [c - pre]) hnd' hdisj',
        consec_diffs, List.sum_cons, List.sum_append]
      simp
      ring

lemma dict_insert_keys_subset {α : Type} (k : List Char) (v : α) :
    ∀ d : List (List Char × α), ∀ x,
    x ∈ (dict_insert k v d).map Prod.fst → x = k ∨ x ∈ d.map Prod.fst := by
  intro d
  induction d with
  | nil => intro x hx; simp [dict_insert] at hx; exact Or.inl hx
  | cons kv rest ih =>
    intro x hx
    rw [dict_insert] at hx
    by_cases hk : kv.1 = k
    · rw [if_pos hk, List.map_cons] at hx
      rcases List.mem_cons.mp hx with h | h
      · exact Or.inl h
      · exact Or.inr (by rw [List.map_cons]; exact List.mem_cons_of_mem _ h)
    · rw [if_neg hk, List.map_cons] at hx
      rcases List.mem_cons.mp hx with h | h
      · exact Or.inr (by rw [List.map_cons]; exact h ▸ List.mem_cons_self _ _)
      · rcases ih x h with h' | h'
        · exact Or.inl h'
        · exact Or.inr (by rw [List.map_cons]; exact List.mem_cons_of_mem _ h')

lemma search_step_not_cut_mono (sequence enzyme_type : List Char)
    (st : SearchAccum) (enzyme : EnzymeInfo) {x : List Char}
    (hx : x ∈ st.not_cut_enzymes) :
    x ∈ (search_step sequence enzyme_type st enzyme).not_cut_enzymes := by
  rw [search_step]
  split
  · exact hx
  · split
    · split
      · exact hx
      · exact List.mem_append.mpr (Or.inl hx)
    · exact hx

lemma foldl_search_step_not_cut_mono (sequence enzyme_type : List Char) :
    ∀ (l : List EnzymeInfo) (st : SearchAccum) (x : List Char),
    x ∈ st.not_cut_enzymes →
    x ∈ (l.foldl (search_step sequence enzyme_type) st).not_cut_enzymes := by
  intro l
  induction l with
  | nil => intro st x hx; exact hx
  | cons e rest ih =>
    intro st x hx
    exact ih _ x (search_step_not_cut_mono sequence enzyme_type st e hx)

lemma foldl_search_step_not_cut_mem (sequence enzyme_type : List Char)
    (hc : collects_no_cut enzyme_type) :
    ∀ (l : List EnzymeInfo) (st : SearchAccum) (e : EnzymeInfo),
    e ∈ l → search_pattern e.pattern sequence true = [] →
    e.name ∈ (l.foldl (search_step sequence enzyme_type) st).not_cut_enzymes := by
  intro l
  induction l with
  | nil => intro st e he _; simp at he
  | cons e0 rest ih =>
    intro st e he hz
    rcases List.mem_cons.mp he with rfl | he'
    · rw [List.foldl_cons]
      apply foldl_search_step_not_cut_mono
      rw [search_step]
      split
      · next hsites => exact absurd hz (by simpa using hsites)
      · split
        · next hmem => exact hmem
        · simp
    · exact ih _ e he' hz

lemma search_step_data_keys (sequence enzyme_type : List Char)
    (st : SearchAccum) (enzyme : EnzymeInfo) {x : List Char}
    (hx : x ∈ (search_step sequence enzyme_type st enzyme).data_hash.map Prod.fst) :
    x = enzyme.name ∨ x ∈ st.data_hash.map Prod.fst := by
  rw [search_step] at hx
  revert hx
  split
  · intro hx
    exact dict_insert_keys_subset enzyme.name _ st.data_hash x hx
  · split
    · split
      · intro hx; exact Or.inr hx
      · intro hx; exact Or.inr hx
    · intro hx; exact Or.inr hx

lemma foldl_search_step_data_keys_not_mem (sequence enzyme_type : List Char)
    (nm : List Char) :
    ∀ (l : List EnzymeInfo) (st : SearchAccum),
    nm ∉ st.data_hash.map Prod.fst →
    (∀ e ∈ l, e.name = nm → search_pattern e.pattern sequence true = []) →
    nm ∉ (l.foldl (search_step sequence enzyme_type) st).data_hash.map Prod.fst := by
  intro l
  induction l with
  | nil => intro st hst _; exact hst
  | cons e0 rest ih =>
    intro st hst hall
    apply ih
    · intro hmem
      rcases search_step_data_keys sequence enzyme_type st e0 hmem with heq | hmem'
      · -- the step inserted nm into data_hash, so e0 has sites and name nm
        revert hmem
        rw [search_step]
        split
        · next hsites =>
          intro hmem
          rcases dict_insert_keys_subset e0.name _ st.data_hash nm hmem with h | h
          · exact hsites (hall e0 (List.mem_cons_self _ _) h.symm)
          · exact hst h
        · split
          · split
            · intro hmem; exact hst hmem
            · intro hmem; exact hst hmem
          · intro hmem; exact hst hmem
      · exact hst hmem'
    · intro e he hnm
      exact hall e (List.mem_cons_of_mem _ he) hnm

lemma cut_filter_keys_subset (cut_limit : Nat)
    (d : List (List Char × List (Nat × Nat))) :
    ∀ x ∈ (cut_filter cut_limit d).map Prod.fst, x ∈ d.map Prod.fst := by
  have haux : ∀ (l acc : List (List Char × List (Nat × Nat))), ∀ x,
      x ∈ (l.foldl
        (fun acc kv => if cut_keep cut_limit kv then acc ++ [kv] else acc)
          acc).map Prod.fst →
      x ∈ acc.map Prod.fst ∨ x ∈ l.map Prod.fst := by
    intro l
    induction l with
    | nil => intro acc x hx; exact Or.inl hx
    | cons kv rest ih =>
      intro acc x hx
      rw [List.foldl_cons] at hx
      by_cases hkeep : cut_keep cut_limit kv
      · rw [if_pos hkeep] at hx
        rcases ih (acc ++ [kv]) x hx with h | h
        · rw [List.map_append, List.mem_append] at h
          rcases h with h | h
          · exact Or.inl h
          · exact Or.inr (by simpa using Or.inl (by simpa using h))
        · exact Or.inr (List.mem_cons_of_mem _ (by simpa using h))
      · rw [if_neg hkeep] at hx
        rcases ih acc x hx with h | h
        · exact Or.inl h
        · exact Or.inr (List.mem_cons_of_mem _ (by simpa using h))
  intro x hx
  rcases haux d [] x hx with h | h
  · simp at h
  · exact h

lemma data_build_keys_subset (seq_len : Int) (st : SearchAccum)
    (enzyme_type : List Char) (etm : List Char → List Char)
    (keys : List (List Char)) :
    ∀ x ∈ (keys.foldl
      (fun acc name =>
        if (contains_sub ['o','v','e','r','h','a','n','g'] enzyme_type ∨
            contains_sub ['b','l','u','n','t'] enzyme_type) ∧
            etm name ≠ enzyme_type then acc
        else acc ++ [(name, build_result seq_len st name etm)]) []).map Prod.fst,
      x ∈ keys := by
  have haux : ∀ (l : List (List Char))
      (acc : List (List Char × EnzymeResult)), ∀ x,
      x ∈ (l.foldl
        (fun acc name =>
          if (contains_sub ['o','v','e','r','h','a','n','g'] enzyme_type ∨
              contains_sub ['b','l','u','n','t'] enzyme_type) ∧
              etm name ≠ enzyme_type then acc
          else acc ++ [(name, build_result seq_len st name etm)]) acc).map Prod.fst →
      x ∈ acc.map Prod.fst ∨ x ∈ l := by
    intro l
    induction l with
    | nil => intro acc x hx; exact Or.inl hx
    | cons nm rest ih =>
      intro acc x hx
      rw [List.foldl_cons] at hx
      by_cases hskip : (contains_sub ['o','v','e','r','h','a','n','g'] enzyme_type ∨
          contains_sub ['b','l','u','n','t'] enzyme_type) ∧ etm nm ≠ enzyme_type
      · rw [if_pos hskip] at hx
        rcases ih acc x hx with h | h
        · exact Or.inl h
        · exact Or.inr (List.mem_cons_of_mem _ h)
      · rw [if_neg hskip] at hx
        rcases ih _ x hx with h | h
        · rw [List.map_append, List.mem_append] at h
          rcases h with h | h
          · exact Or.inl h
          · simp at h
            exact Or.inr (by simp [h])
        · exact Or.inr (List.mem_cons_of_mem _ h)
  intro x hx
  rcases haux keys [] x hx with h | h
  · simp at h
  · exact h

end RestrictionService

namespace PatmatchService

/-- Python `str(int)`: decimal digits, `-`-prefixed when negative. -/
def intDigits (i : Int) : List Char :=
  if i < 0 then '-' :: PatternConverter.natDigits (-i).toNat
  else PatternConverter.natDigits i.toNat

/-- Python `str.split(sep)` on a character list (empty segments kept). -/
def split_on (sep : Char) : List Char → List (List Char)
  | [] => [[]]
  | c :: rest =>
    match split_on sep rest with
    | p :: ps => if c = sep then [] :: p :: ps else (c :: p) :: ps
    | [] => [[c]]

/-- Python `str.rstrip(',')`: drop every trailing comma. -/
def rstrip_comma (s : List Char) : List Char :=
  (s.reverse.dropWhile (· = ',')).reverse

/-- Python `d.get(k)` on an integer-keyed dict. -/
def ndict_find {α : Type} (d : List (Nat × α)) (k : Nat) : Option α :=
  (d.find? (fun kv => kv.1 = k)).map Prod.snd

/-- Python `d.get(k)` on a string-keyed dict. -/
def sdict_find {α : Type} (d : List (List Char × α)) (k : List Char) : Option α :=
  (d.find? (fun kv => kv.1 = k)).map Prod.snd

/-- Exclusion-position check (patmatch_service.py, lines 383-390): reject a
match when some negated-class constraint `(pos, chars)` has `pos` inside
the matched text and the character there is excluded. -/
def excluded (excls : List (Option Nat × List Char)) (mp : List Char) : Bool :=
  excls.any (fun pc =>
    match pc.1 with
    | some p => decide (p < mp.length) && decide (mp.getD p ' ' ∈ pc.2)
    | none => false)

/-- End-anchor rejection (patmatch_service.py, lines 405-408): with
`end_match = 1`, reject when the record has no known length or the match
does not end at it. -/
def end_reject (end_match : Nat) (lengths : List (List Char × Int))
    (nm : List Char) (seq_end : Int) : Bool :=
  decide (end_match = 1) &&
    (match sdict_find lengths nm with
     | none => true
     | some L => decide (seq_end ≠ L))

/-- State of the main output loop (patmatch_service.py, lines 350-353). -/
structure LoopState where
  data : List (List Char)
  total_hits : Nat
  unique_hits : Nat
  hit_count_for_seq : List (List Char × Nat)
deriving Repr

/-- Accept path of the main loop (patmatch_service.py, lines 412-445):
trim trailing commas from the record name, annotate, build the tab-joined
row, count the hit as unique when the record is new, then either stop —
`false`, the `break` once `total_hits` has reached `maxhits`, which still
happens after the unique-hit increment — or record the row and continue
(`true`). -/
def accept_span
    (name_to_data : List (List Char × (List Char × List Char × List Char)))
    (maxhits : Nat) (seq_name0 : List Char) (seq_beg seq_end : Int)
    (mp : List Char) (st : LoopState) : LoopState × Bool :=
  let seq_name := if seq_name0.getLast? = some ',' then
    rstrip_comma seq_name0 else seq_name0
  let gsd := RestrictionService.dict_get name_to_data seq_name ([], [], [])
  let row := seq_name ++ '\t' :: intDigits seq_beg
    ++ '\t' :: intDigits seq_end ++ '\t' :: mp
    ++ '\t' :: gsd.1 ++ '\t' :: gsd.2.1 ++ '\t' :: gsd.2.2
  let unique' := if sdict_find st.hit_count_for_seq seq_name = none
    then st.unique_hits + 1 else st.unique_hits
  if maxhits ≤ st.total_hits then
    ({ st with unique_hits := unique' }, false)
  else
    ({ data := st.data ++ [row]
       total_hits := st.total_hits + 1
       unique_hits := unique'
       hit_count_for_seq := RestrictionService.dict_insert seq_name
         (RestrictionService.dict_get st.hit_count_for_seq seq_name 0 + 1)
         st.hit_count_for_seq }, true)

/-- Main loop of `process_output` (patmatch_service.py, lines 366-445) for
datasets whose path does not contain `'Not'` (the NotFeature rebasing
branch is outside this embedding).  `spans` are the already-parsed
`(start, end, text)` triples: lines 366-380 parse the `[start, end]: text`
format and drop malformed lines before this point, and
`str(offset).isdigit()` (line 394) is a tautology for a `Nat` offset.
`lengths` stands for `set_seq_length(datafile)` and `name_to_data` for the
locus annotation map — both are loaded from data files. -/
def process_spans (T : List Nat) (names : List (Nat × List Char))
    (excls : List (Option Nat × List Char)) (beg_match end_match : Nat)
    (lengths : List (List Char × Int))
    (name_to_data : List (List Char × (List Char × List Char × List Char)))
    (maxhits : Nat) :
    List (Nat × Nat × List Char) → LoopState → LoopState
  | [], st => st
  | (beg, fin, mp) :: rest, st =>
    if excluded excls mp then
      process_spans T names excls beg_match end_match lengths name_to_data
        maxhits rest st
    else
      let offset := FastaUtils.get_name_offset beg T
      let seq_beg : Int := (beg : Int) - (offset : Int) + 1
      let seq_end : Int := (fin : Int) - (offset : Int)
      match ndict_find names offset with
      | none =>
        process_spans T names excls beg_match end_match lengths name_to_data
          maxhits rest st
      | some seq_name0 =>
        if decide (beg_match = 1) && decide (seq_beg ≠ 1) then
          process_spans T names excls beg_match end_match lengths name_to_data
            maxhits rest st
        else if end_reject end_match lengths seq_name0 seq_end then
          process_spans T names excls beg_match end_match lengths name_to_data
            maxhits rest st
        else if seq_name0.head? = some '>' then
          process_spans T names excls beg_match end_match lengths name_to_data
            maxhits rest st
        else
          match accept_span name_to_data maxhits seq_name0 seq_beg seq_end mp st with
          | (st1, false) => st1
          | (st1, true) =>
            process_spans T names excls beg_match end_match lengths name_to_data
              maxhits rest st1

/-- One entry of the returned `new_data` (patmatch_service.py, lines
486-507); the two dict shapes of the source (with and without `sgdid`)
carry the same fields. -/
structure HitEntry where
  seqname : List Char
  beg : List Char
  fin : List Char
  count : Nat
  matchingPattern : List Char
  gene_name : List Char
  sgdid : List Char
  desc : List Char
deriving DecidableEq, Repr

/-- Second phase of `process_output` (patmatch_service.py, lines 463-508):
re-split a sorted row on tabs; rows that do not split into exactly seven
columns raise and are skipped; with a non-empty `sgdid` a gene name equal
to the sequence name is blanked. -/
def row_to_entry (hit_count : List (List Char × Nat)) (row : List Char) :
    Option HitEntry :=
  match split_on '\t' row with
  | [seq_name, beg, fin, mp, gene, sgdid, desc] =>
    let count := RestrictionService.dict_get hit_count seq_name 0
    if sgdid ≠ [] then
      some (HitEntry.mk seq_name beg fin count mp
        (if gene = seq_name then [] else gene) sgdid desc)
    else some (HitEntry.mk seq_name beg fin count mp gene sgdid desc)
  | _ => none

/-- `process_output` (patmatch_service.py, lines 311-526) for non-NotFeature
datasets: run the main loop, sort the rows lexicographically, convert each
row to a `HitEntry`; returns `(new_data, unique_hits, total_hits)` (the
output file and its error message are I/O and dropped). -/
def process_output (T : List Nat) (names : List (Nat × List Char))
    (excls : List (Option Nat × List Char))
    (lengths : List (List Char × Int))
    (name_to_data : List (List Char × (List Char × List Char × List Char)))
    (maxhits beg_match end_match : Nat)
    (spans : List (Nat × Nat × List Char)) :
    List HitEntry × Nat × Nat :=
  let st := process_spans T names excls beg_match end_match lengths
    name_to_data maxhits spans (LoopState.mk [] 0 0 [])
  let sorted_rows := List.insertionSort
    (fun a b => RestrictionService.lex_le a b = true) st.data
  (sorted_rows.filterMap (row_to_entry st.hit_count_for_seq),
    st.unique_hits, st.total_hits)

/-- A span that passes every rejection test of the main loop with respect
to the given index table, name map, exclusions, anchors and lengths. -/
def qualifies (T : List Nat) (names : List (Nat × List Char))
    (excls : List (Option Nat × List Char)) (beg_match end_match : Nat)
    (lengths : List (List Char × Int)) (span : Nat × Nat × List Char) : Prop :=
  excluded excls span.2.2 = false ∧
  match ndict_find names (FastaUtils.get_name_offset span.1 T) with
  | none => False
  | some nm =>
    (decide (beg_match = 1) &&
      decide ((span.1 : Int) - (FastaUtils.get_name_offset span.1 T : Int) + 1 ≠ 1))
      = false ∧
    end_reject end_match lengths nm
      ((span.2.1 : Int) - (FastaUtils.get_name_offset span.1 T : Int)) = false ∧
    nm.head? ≠ some '>'

instance qualifies_decidable (T : List Nat) (names : List (Nat × List Char))
    (excls : List (Option Nat × List Char)) (beg_match end_match : Nat)
    (lengths : List (List Char × Int)) (span : Nat × Nat × List Char) :
    Decidable (qualifies T names excls beg_match end_match lengths span) := by
  rw [qualifies]
  cases ndict_find names (FastaUtils.get_name_offset span.1 T) <;> exact inferInstance

end PatmatchService

namespace PatmatchService

/-- A row that re-splits into exactly the seven tab-separated columns the
second phase expects. -/
def good_row (r : List Char) : Prop := (split_on '\t' r).length = 7

lemma split_on_no_sep (sep : Char) (a : List Char) (h : sep ∉ a) :
    split_on sep a = [a] := by
  induction a with
  | nil => rfl
  | cons c rest ih =>
    have hc : c ≠ sep := fun hc => h (hc ▸ List.mem_cons_self c rest)
    have hrest : sep ∉ rest := fun hr => h (List.mem_cons_of_mem c hr)
    rw [split_on, ih hrest]
    simp [hc]

lemma split_on_append (sep : Char) (a b : List Char) (h : sep ∉ a) :
    split_on sep (a ++ sep :: b) = a :: split_on sep b := by
  induction a with
  | nil =>
    simp only [List.nil_append, split_on]
    cases hb : split_on sep b with
    | nil =>
      exfalso
      induction b with
      | nil => simp [split_on] at hb
      | cons c rest ihb =>
        rw [split_on] at hb
        revert hb
        cases split_on sep rest with
        | nil => intro hb; simp at hb
        | cons p ps =>
          intro hb
          by_cases hc : c = sep <;> simp [hc] at hb
    | cons p ps => simp
  | cons c rest ih =>
    have hc : c ≠ sep := fun hc => h (hc ▸ List.mem_cons_self c rest)
    have hrest : sep ∉ rest := fun hr => h (List.mem_cons_of_mem c hr)
    rw [List.cons_append, split_on, ih hrest]
    simp [hc]

lemma split_row7 (f1 f2 f3 f4 f5 f6 f7 : List Char)
    (h1 : '\t' ∉ f1) (h2 : '\t' ∉ f2) (h3 : '\t' ∉ f3) (h4 : '\t' ∉ f4)
    (h5 : '\t' ∉ f5) (h6 : '\t' ∉ f6) (h7 : '\t' ∉ f7) :
    split_on '\t' (f1 ++ '\t' :: f2 ++ '\t' :: f3 ++ '\t' :: f4
        ++ '\t' :: f5 ++ '\t' :: f6 ++ '\t' :: f7)
      = [f1, f2, f3, f4, f5, f6, f7] := by
  simp only [List.append_assoc, List.cons_append]
  rw [split_on_append _ _ _ h1, split_on_append _ _ _ h2,
    split_on_append _ _ _ h3, split_on_append _ _ _ h4,
    split_on_append _ _ _ h5, split_on_append _ _ _ h6,
    split_on_no_sep _ _ h7]

lemma notab_intDigits (i : Int) : '\t' ∉ intDigits i := by
  rw [intDigits]
  have hdig : ∀ n : Nat, '\t' ∉ PatternConverter.natDigits n := by
    intro n hmem
    have := PatternConverter.natDigits_all_digit n _ hmem
    simp [Char.isDigit] at this
  split
  · intro hmem
    rcases List.mem_cons.mp hmem with h | h
    · simp at h
    · exact hdig _ h
  · exact hdig _

lemma notab_rstrip {s : List Char} (h : '\t' ∉ s) : '\t' ∉ rstrip_comma s := by
  intro hmem
  rw [rstrip_comma, List.mem_reverse] at hmem
  exact h (List.mem_reverse.mp ((List.dropWhile_sublist _).subset hmem))

lemma dict_get_default_or_mem {α : Type} (d : List (List Char × α))
    (k : List Char) (dflt : α) :
    RestrictionService.dict_get d k dflt = dflt ∨
    ∃ kv ∈ d, RestrictionService.dict_get d k dflt = kv.2 := by
  rw [RestrictionService.dict_get]
  cases hf : d.find? (fun kv => kv.1 = k) with
  | none => exact Or.inl rfl
  | some kv => exact Or.inr ⟨kv, List.mem_of_find?_eq_some hf, rfl⟩

lemma ndict_find_mem {α : Type} {d : List (Nat × α)} {k : Nat} {v : α}
    (h : ndict_find d k = some v) : ∃ kv ∈ d, kv.2 = v := by
  rw [ndict_find] at h
  cases hf : d.find? (fun kv => kv.1 = k) with
  | none => rw [hf] at h; simp at h
  | some kv =>
    rw [hf] at h
    simp at h
    exact ⟨kv, List.mem_of_find?_eq_some hf, h⟩

lemma accept_span_break
    (name_to_data : List (List Char × (List Char × List Char × List Char)))
    (maxhits : Nat) (seq_name0 : List Char) (seq_beg seq_end : Int)
    (mp : List Char) (st : LoopState) (hmax : maxhits ≤ st.total_hits) :
    ∃ u, accept_span name_to_data maxhits seq_name0 seq_beg seq_end mp st
        = ({ st with unique_hits := u }, false) ∧ u ≤ st.unique_hits + 1 := by
  rw [accept_span]
  rw [if_pos hmax]
  refine ⟨_, rfl, ?_⟩
  split <;> split <;> omega

lemma accept_span_cont
    (name_to_data : List (List Char × (List Char × List Char × List Char)))
    (maxhits : Nat) (seq_name0 : List Char) (seq_beg seq_end : Int)
    (mp : List Char) (st : LoopState) (hmax : st.total_hits < maxhits)
    (hn0 : '\t' ∉ seq_name0) (hmp : '\t' ∉ mp)
    (hntd : ∀ kv ∈ name_to_data,
      '\t' ∉ kv.2.1 ∧ '\t' ∉ kv.2.2.1 ∧ '\t' ∉ kv.2.2.2) :
    ∃ row u hc,
      accept_span name_to_data maxhits seq_name0 seq_beg seq_end mp st
        = (LoopState.mk (st.data ++ [row]) (st.total_hits + 1) u hc, true) ∧
      u ≤ st.unique_hits + 1 ∧ good_row row := by
  rw [accept_span]
  rw [if_neg (Nat.not_le.mpr hmax)]
  refine ⟨_, _, _, rfl, ?_, ?_⟩
  · split <;> split <;> omega
  · set seq_name := if seq_name0.getLast? = some ',' then
      rstrip_comma seq_name0 else seq_name0 with hsn
    have hsn_notab : '\t' ∉ seq_name := by
      rw [hsn]
      split
      · exact notab_rstrip hn0
      · exact hn0
    have hgsd_notab :
        '\t' ∉ (RestrictionService.dict_get name_to_data seq_name ([], [], [])).1 ∧
        '\t' ∉ (RestrictionService.dict_get name_to_data seq_name ([], [], [])).2.1 ∧
        '\t' ∉ (RestrictionService.dict_get name_to_data seq_name ([], [], [])).2.2 := by
      rcases dict_get_default_or_mem name_to_data seq_name ([], [], [])
        with h | ⟨kv, hkv, h⟩
      · rw [h]
        exact ⟨by simp, by simp, by simp⟩
      · rw [h]
        exact hntd kv hkv
    rw [good_row, split_row7 _ _ _ _ _ _ _ hsn_notab (notab_intDigits _)
      (notab_intDigits _) hmp hgsd_notab.1 hgsd_notab.2.1 hgsd_notab.2.2]
    rfl

lemma process_spans_cons_qualified
    (T : List Nat) (names : List (Nat × List Char))
    (excls : List (Option Nat × List Char)) (beg_match end_match : Nat)
    (lengths : List (List Char × Int))
    (name_to_data : List (List Char × (List Char × List Char × List Char)))
    (maxhits : Nat) (beg fin : Nat) (mp : List Char)
    (rest : List (Nat × Nat × List Char)) (st : LoopState) (nm : List Char)
    (hexcl : excluded excls mp = false)
    (hnm : ndict_find names (FastaUtils.get_name_offset beg T) = some nm)
    (hbeg : (decide (beg_match = 1) &&
      decide ((beg : Int) - (FastaUtils.get_name_offset beg T : Int) + 1 ≠ 1))
        = false)
    (hend : end_reject end_match lengths nm
      ((fin : Int) - (FastaUtils.get_name_offset beg T : Int)) = false)
    (hgt : nm.head? ≠ some '>') :
    process_spans T names excls beg_match end_match lengths name_to_data maxhits
        ((beg, fin, mp) :: rest) st
      = (match accept_span name_to_data maxhits nm
            ((beg : Int) - (FastaUtils.get_name_offset beg T : Int) + 1)
            ((fin : Int) - (FastaUtils.get_name_offset beg T : Int)) mp st with
         | (st1, false) => st1
         | (st1, true) =>
            process_spans T names excls beg_match end_match lengths name_to_data
              maxhits rest st1) := by
  rw [process_spans]
  rw [if_neg (by rw [hexcl]; simp)]
  dsimp only
  rw [hnm]
  dsimp only
  rw [if_neg (by rw [hbeg]; simp)]
  rw [if_neg (by rw [hend]; simp)]
  rw [if_neg hgt]

lemma process_spans_at_max
    (T : List Nat) (names : List (Nat × List Char))
    (excls : List (Option Nat × List Char)) (beg_match end_match : Nat)
    (lengths : List (List Char × Int))
    (name_to_data : List (List Char × (List Char × List Char × List Char)))
    (maxhits : Nat) :
    ∀ (spans : List (Nat × Nat × List Char)) (st : LoopState),
    (∀ s ∈ spans, qualifies T names excls beg_match end_match lengths s) →
    maxhits ≤ st.total_hits →
    (process_spans T names excls beg_match end_match lengths name_to_data
        maxhits spans st).data = st.data ∧
    (process_spans T names excls beg_match end_match lengths name_to_data
        maxhits spans st).total_hits = st.total_hits ∧
    (process_spans T names excls beg_match end_match lengths name_to_data
        maxhits spans st).unique_hits ≤ st.unique_hits + 1 := by
  intro spans st hq hmax
  cases spans with
  | nil =>
    rw [process_spans]
    exact ⟨rfl, rfl, by omega⟩
  | cons s rest =>
    obtain ⟨beg, fin, mp⟩ := s
    have hq0 := hq _ (List.mem_cons_self _ _)
    rw [qualifies] at hq0
    obtain ⟨hexcl, hq1⟩ := hq0
    cases hfind : ndict_find names (FastaUtils.get_name_offset beg T) with
    | none => rw [hfind] at hq1; exact absurd hq1 (by simp)
    | some nm =>
      rw [hfind] at hq1
      obtain ⟨hbeg, hend, hgt⟩ := hq1
      rw [process_spans_cons_qualified T names excls beg_match end_match lengths
        name_to_data maxhits beg fin mp rest st nm hexcl hfind hbeg hend hgt]
      obtain ⟨u, heq, hu⟩ := accept_span_break name_to_data maxhits nm _ _ mp st hmax
      rw [heq]
      exact ⟨rfl, rfl, hu⟩

lemma process_spans_run
    (T : List Nat) (names : List (Nat × List Char))
    (excls : List (Option Nat × List Char)) (beg_match end_match : Nat)
    (lengths : List (List Char × Int))
    (name_to_data : List (List Char × (List Char × List Char × List Char)))
    (maxhits : Nat)
    (Hnames : ∀ kv ∈ names, '\t' ∉ kv.2)
    (Hntd : ∀ kv ∈ name_to_data,
      '\t' ∉ kv.2.1 ∧ '\t' ∉ kv.2.2.1 ∧ '\t' ∉ kv.2.2.2) :
    ∀ (spans : List (Nat × Nat × List Char)) (st : LoopState),
    (∀ s ∈ spans, qualifies T names excls beg_match end_match lengths s) →
    (∀ s ∈ spans, '\t' ∉ s.2.2) →
    st.total_hits < maxhits →
    ∃ extra,
      (process_spans T names excls beg_match end_match lengths name_to_data
          maxhits spans st).data = st.data ++ extra ∧
      (process_spans T names excls beg_match end_match lengths name_to_data
          maxhits spans st).total_hits
        = min (st.total_hits + spans.length) maxhits ∧
      extra.length = (process_spans T names excls beg_match end_match lengths
          name_to_data maxhits spans st).total_hits - st.total_hits ∧
      (process_spans T names excls beg_match end_match lengths name_to_data
          maxhits spans st).unique_hits
        ≤ st.unique_hits + extra.length + 1 ∧
      ∀ r ∈ extra, good_row r := by
  intro spans
  induction spans with
  | nil =>
    intro st _ _ hmax
    rw [process_spans]
    refine ⟨[], by simp, ?_, ?_, ?_, by simp⟩
    · simp only [List.length_nil, Nat.add_zero]
      omega
    · simp
    · simp only [List.length_nil]
      omega
  | cons s rest ih =>
    intro st hq hnotab hmax
    obtain ⟨beg, fin, mp⟩ := s
    have hq0 := hq _ (List.mem_cons_self _ _)
    rw [qualifies] at hq0
    obtain ⟨hexcl, hq1⟩ := hq0
    cases hfind : ndict_find names (FastaUtils.get_name_offset beg T) with
    | none => rw [hfind] at hq1; exact absurd hq1 (by simp)
    | some nm =>
      rw [hfind] at hq1
      obtain ⟨hbeg, hend, hgt⟩ := hq1
      rw [process_spans_cons_qualified T names excls beg_match end_match lengths
        name_to_data maxhits beg fin mp rest st nm hexcl hfind hbeg hend hgt]
      have hnm_notab : '\t' ∉ nm := by
        obtain ⟨kv, hkv, hkv2⟩ := ndict_find_mem hfind
        exact hkv2 ▸ Hnames kv hkv
      have hmp_notab : '\t' ∉ mp := hnotab _ (List.mem_cons_self _ _)
      obtain ⟨row, u, hc, heq, hu, hrow⟩ := accept_span_cont name_to_data maxhits
        nm _ _ mp st hmax hnm_notab hmp_notab Hntd
      rw [heq]
      by_cases h2 : st.total_hits + 1 < maxhits
      · obtain ⟨extra, hdata, htotal, hlen, hunique, hgood⟩ :=
          ih (LoopState.mk (st.data ++ [row]) (st.total_hits + 1) u hc)
            (fun s hs => hq s (List.mem_cons_of_mem _ hs))
            (fun s hs => hnotab s (List.mem_cons_of_mem _ hs)) h2
        refine ⟨row :: extra, ?_, ?_, ?_, ?_, ?_⟩
        · rw [hdata]
          simp
        · rw [htotal]
          simp only [List.length_cons]
          omega
        · simp only [List.length_cons, hlen, htotal]
          omega
        · simp only [List.length_cons]
          have h3 := hunique
          simp only at h3
          have h4 := hlen
          simp only at h4
          omega
        · intro r hr
          rcases List.mem_cons.mp hr with rfl | hr'
          · exact hrow
          · exact hgood r hr'
      · have hstep := process_spans_at_max T names excls beg_match end_match
          lengths name_to_data maxhits rest
          (LoopState.mk (st.data ++ [row]) (st.total_hits + 1) u hc)
          (fun s hs => hq s (List.mem_cons_of_mem _ hs)) (by simp; omega)
        refine ⟨[row], ?_, ?_, ?_, ?_, ?_⟩
        · rw [hstep.1]
        · rw [hstep.2.1]
          simp only [List.length_cons]
          omega
        · rw [hstep.2.1]
          simp
        · have := hstep.2.2
          simp only at this
          simp only [List.length_cons, List.length_nil]
          omega
        · intro r hr
          rcases List.mem_singleton.mp hr with rfl
          exact hrow

lemma row_to_entry_isSome (hc : List (List Char × Nat)) (r : List Char)
    (h : good_row r) : (row_to_entry hc r).isSome := by
  rw [good_row] at h
  rw [row_to_entry]
  rcases hs : split_on '\t' r with _ | ⟨a, _ | ⟨b, _ | ⟨c, _ | ⟨d, _ | ⟨e,
    _ | ⟨f, _ | ⟨g, _ | ⟨x, rest⟩⟩⟩⟩⟩⟩⟩⟩ <;>
    rw [hs] at h <;> simp at h ⊢
  split <;> simp

lemma filterMap_length_of_good (hc : List (List Char × Nat)) :
    ∀ rows : List (List Char), (∀ r ∈ rows, good_row r) →
    (rows.filterMap (row_to_entry hc)).length = rows.length := by
  intro rows
  induction rows with
  | nil => intro _; rfl
  | cons r rest ih =>
    intro hg
    rw [List.filterMap_cons]
    have hsome := row_to_entry_isSome hc r (hg r (List.mem_cons_self _ _))
    cases he : row_to_entry hc r with
    | none => rw [he] at hsome; simp at hsome
    | some e =>
      simp only [List.length_cons, ih (fun r hr => hg r (List.mem_cons_of_mem _ hr))]

end PatmatchService

namespace FastaUtils

/-- Python `str.isspace` characters as split boundaries of `str.split()`. -/
def py_isspace (c : Char) : Bool :=
  c = ' ' || c = '\t' || c = '\n' || c = '\r' || c = '\x0b' || c = '\x0c'

/-- First word of `s.split()`: skip leading whitespace, take until the
next whitespace; `[]` when `s.split()` is empty. -/
def first_word (s : List Char) : List Char :=
  (s.dropWhile py_isspace).takeWhile (fun c => !py_isspace c)

/-- A line on which `generate_sequence_index` records offsets
(fasta_utils.py, lines 35-48): it starts with `>` and `line[1:].split()`
is non-empty. -/
def recordsHeader (line : List Char) : Prop :=
  line.head? = some '>' ∧ first_word (line.drop 1) ≠ []

instance (line : List Char) : Decidable (recordsHeader line) :=
  inferInstanceAs (Decidable (line.head? = some '>' ∧ first_word (line.drop 1) ≠ []))

/-- `parts[0]`: the sequence name on a header line. -/
def headerName (line : List Char) : List Char := first_word (line.drop 1)

/-- Scan of `generate_sequence_index` (fasta_utils.py, lines 25-52):
for each header line at byte count `b`, append `b` and the data-start
offset `b + len(line)` to the offset list and enter them into the
offset-to-name dict (`dict_insert` models the Python dict assignment,
overwriting an existing key in place). -/
def generate_sequence_index_aux :
    List (List Char) → Nat → List Nat → List (Nat × List Char) →
      List Nat × List (Nat × List Char)
  | [], _, offs, names => (offs, names)
  | line :: rest, b, offs, names =>
    if recordsHeader line then
      generate_sequence_index_aux rest (b + line.length)
        (offs ++ [b, b + line.length])
        (RestrictionService.dict_insert (b + line.length) (headerName line)
          (RestrictionService.dict_insert b ('>' :: headerName line) names))
    else generate_sequence_index_aux rest (b + line.length) offs names

/-- `generate_sequence_index` (fasta_utils.py, lines 10-52) on the list of
raw file lines (each line carries its terminating newline, so it is
non-empty and its length is its byte count). -/
def generate_sequence_index (lines : List (List Char)) :
    List Nat × List (Nat × List Char) :=
  generate_sequence_index_aux lines 0 [] []

lemma dict_insert_fresh {κ α : Type} [DecidableEq κ] (k : κ) (v : α) :
    ∀ d : List (κ × α), k ∉ d.map Prod.fst →
    RestrictionService.dict_insert k v d = d ++ [(k, v)] := by
  intro d
  induction d with
  | nil => intro _; rfl
  | cons kv rest ih =>
    intro hk
    rw [RestrictionService.dict_insert]
    have hne : kv.1 ≠ k := by
      intro h
      exact hk (by simp [← h])
    rw [if_neg hne, ih (fun hmem => hk (by simp [hmem]))]
    rfl

lemma generate_sequence_index_aux_spec :
    ∀ (lines : List (List Char)) (b : Nat) (offs : List Nat)
      (names : List (Nat × List Char)),
    (∀ l ∈ lines, l ≠ []) →
    List.Chain' (fun l1 l2 => recordsHeader l1 → ¬ recordsHeader l2) lines →
    List.Sorted (· < ·) offs →
    names.map Prod.fst = offs →
    (∀ x ∈ offs, x ≤ b) →
    (b ∈ offs → ∀ l ∈ lines.head?, ¬ recordsHeader l) →
    List.Sorted (· < ·) (generate_sequence_index_aux lines b offs names).1 ∧
    (generate_sequence_index_aux lines b offs names).2.map Prod.fst
      = (generate_sequence_index_aux lines b offs names).1 := by
  intro lines
  induction lines with
  | nil =>
    intro b offs names _ _ hsorted hkeys _ _
    rw [generate_sequence_index_aux]
    exact ⟨hsorted, hkeys⟩
  | cons line rest ih =>
    intro b offs names hnz hchain hsorted hkeys hle hbin
    rw [generate_sequence_index_aux]
    by_cases hrec : recordsHeader line
    · rw [if_pos hrec]
      have hlinez : line ≠ [] := hnz _ (List.mem_cons_self _ _)
      have hlen : 0 < line.length := List.length_pos.mpr hlinez
      have hblt : ∀ x ∈ offs, x < b := by
        intro x hx
        rcases Nat.lt_or_ge x b with h | h
        · exact h
        · have hxb : x = b := le_antisymm (hle x hx) h
          subst hxb
          exact absurd hrec (hbin hx line rfl)
      have hbnot : b ∉ offs := fun h => lt_irrefl b (hblt b h)
      have hbnot2 : b + line.length ∉ offs ++ [b] := by
        intro h
        rcases List.mem_append.mp h with h | h
        · have := hblt _ h; omega
        · rw [List.mem_singleton] at h; omega
      have hkeys1 : (RestrictionService.dict_insert b ('>' :: headerName line)
          names).map Prod.fst = offs ++ [b] := by
        rw [dict_insert_fresh _ _ names (by rw [hkeys]; exact hbnot)]
        simp [hkeys]
      have hkeys2 : (RestrictionService.dict_insert (b + line.length)
          (headerName line)
          (RestrictionService.dict_insert b ('>' :: headerName line)
            names)).map Prod.fst = (offs ++ [b, b + line.length]) := by
        rw [dict_insert_fresh _ _ _ (by rw [hkeys1]; exact hbnot2)]
        simp [hkeys1]
      have hsorted' : List.Sorted (· < ·) (offs ++ [b, b + line.length]) := by
        rw [List.Sorted, List.pairwise_append]
        refine ⟨hsorted, ?_, ?_⟩
        · simp [List.pairwise_cons]
          omega
        · intro x hx y hy
          rcases List.mem_cons.mp hy with rfl | hy'
          · exact hblt x hx
          · rw [List.mem_singleton] at hy'
            subst hy'
            have := hblt x hx
            omega
      refine ih (b + line.length) (offs ++ [b, b + line.length]) _
        (fun l hl => hnz l (List.mem_cons_of_mem _ hl))
        (List.Chain'.tail hchain) hsorted' hkeys2 ?_ ?_
      · intro x hx
        rcases List.mem_append.mp hx with h | h
        · have := hblt x h; omega
        · rcases List.mem_cons.mp h with rfl | h'
          · omega
          · rw [List.mem_singleton] at h'; omega
      · intro _ l hl
        cases rest with
        | nil => simp at hl
        | cons r rs =>
          simp only [List.head?_cons, Option.mem_def, Option.some.injEq] at hl
          subst hl
          exact (List.chain'_cons.mp hchain).1 hrec
    · rw [if_neg hrec]
      have hlinez : line ≠ [] := hnz _ (List.mem_cons_self _ _)
      have hlen : 0 < line.length := List.length_pos.mpr hlinez
      refine ih (b + line.length) offs names
        (fun l hl => hnz l (List.mem_cons_of_mem _ hl))
        (List.Chain'.tail hchain) hsorted hkeys ?_ ?_
      · intro x hx
        have := hle x hx
        omega
      · intro hbin' _ _
        have := hle _ hbin'
        omega

end FastaUtils

namespace PatternConverter

/-- `COMPLEMENT_MAP` (pattern_converter.py, line 43):
`str.maketrans('ATCGRYSWMKVHDB', 'TAGCYRSWKMBDHV')`, applied per
character; characters outside the table are unchanged. -/
def complement_char (c : Char) : Char :=
  match c with
  | 'A' => 'T' | 'T' => 'A' | 'C' => 'G' | 'G' => 'C'
  | 'R' => 'Y' | 'Y' => 'R' | 'S' => 'S' | 'W' => 'W'
  | 'M' => 'K' | 'K' => 'M' | 'V' => 'B' | 'H' => 'D'
  | 'D' => 'H' | 'B' => 'V'
  | c => c

/-- `_complement_nucleotides` (pattern_converter.py, lines 273-288):
translate every character, then swap a leading `<`/`>` and a trailing
`>`/`<` anchor. -/
def complement_nucleotides (pattern : List Char) : List Char :=
  let p := pattern.map complement_char
  let p2 :=
    if p.head? = some '<' then '>' :: p.tail
    else if p.head? = some '>' then '<' :: p.tail
    else p
  if p2.getLast? = some '>' then p2.dropLast ++ ['<']
  else if p2.getLast? = some '<' then p2.dropLast ++ ['>']
  else p2

/-- `opener_map` of `_extract_group` (pattern_converter.py, line 307). -/
def openerOf (closer : Char) : Char :=
  if closer = ')' then '(' else if closer = ']' then '[' else '{'

/-- `_extract_group` (pattern_converter.py, lines 305-342) as a function of
the pending-character stack.  The Python list `chars` is popped from its
right end; here `stack` holds the same characters with the top (the
rightmost pending character) at the head.  For `)`/`]` closers `acc` is
the joined `internal_chars`; for the `}` closer `acc` is the group body
built by `insert(0, ·)` (so characters are consed).  Returns the group
string and the remaining stack; the subtype bound (the stack only
shrinks) justifies termination of the callers. -/
def egSub (closer : Char) :
    (acc : List Char) → (stack : List Char) →
      {pr : List Char × List Char // pr.2.length ≤ stack.length}
  | acc, [] =>
    ⟨(if closer = '}' then acc ++ ['}'] else [closer], []), by simp⟩
  | acc, c :: rest =>
    if c = openerOf closer then
      if closer = '}' then
        match rest with
        | [] => ⟨('{' :: acc ++ ['}'], []), by simp⟩
        | r :: rest2 =>
          if r = ')' ∨ r = ']' then
            let pr := egSub r [] rest2
            ⟨(pr.val.1 ++ '{' :: acc ++ ['}'], pr.val.2), by
              have := pr.property
              simp only [List.length_cons]
              omega⟩
          else ⟨(r :: '{' :: acc ++ ['}'], rest2), by
            simp only [List.length_cons]; omega⟩
      else ⟨(openerOf closer :: acc ++ [closer], rest), by simp⟩
    else if c = ')' ∨ c = ']' ∨ c = '}' then
      match egSub c [] rest with
      | ⟨(g, rest1), h⟩ =>
        let pr2 := egSub closer (if closer = '}' then acc else acc ++ g) rest1
        ⟨pr2.val, by
          have h1 : rest1.length ≤ rest.length := h
          have h2 := pr2.property
          simp only [List.length_cons]
          omega⟩
    else
      let pr := egSub closer (if closer = '}' then c :: acc else acc ++ [c]) rest
      ⟨pr.val, by
        have := pr.property
        simp only [List.length_cons]
        omega⟩
termination_by _ stack => stack.length
decreasing_by
  · simp only [List.length_cons]; omega
  · simp only [List.length_cons]; omega
  · simp only [List.length_cons] at h ⊢
    omega
  · simp only [List.length_cons]; omega

/-- Main loop of `_reverse_pattern` (pattern_converter.py, lines 290-303):
pop a character (stack top = rightmost pending character); a closing
bracket triggers group extraction, everything else is emitted as is. -/
def reverse_loop : (stack : List Char) → (result : List Char) → List Char
  | [], result => result
  | c :: rest, result =>
    if c = ')' ∨ c = ']' ∨ c = '}' then
      let pr := egSub c [] rest
      reverse_loop pr.val.2 (result ++ pr.val.1)
    else reverse_loop rest (result ++ [c])
termination_by stack _ => stack.length
decreasing_by
  · have := (egSub c [] rest).property
    simp only [List.length_cons]
    omega
  · simp only [List.length_cons]; omega

/-- `_reverse_pattern` (pattern_converter.py, lines 290-303). -/
def reverse_pattern (pattern : List Char) : List Char :=
  reverse_loop pattern.reverse []

/-- `_get_reverse_complement` (pattern_converter.py, lines 267-271). -/
def get_reverse_complement (pattern : List Char) : List Char :=
  reverse_pattern (complement_nucleotides pattern)

/-- Token grammar of well-formed Patmatch pattern bodies: a plain
character, a character class, a parenthesised group, or a repeated
base. -/
inductive Tok : Type where
  | ch (c : Char)
  | cls (s : List Char)
  | grp (ts : List Tok)
  | rep (base : Tok) (info : List Char)
deriving Repr

/-- Characters with no structural meaning to the reverse machine. -/
def plainB (c : Char) : Bool :=
  !(c = '(' || c = ')' || c = '[' || c = ']' || c = '{' || c = '}')

/-- A repetition base is a single character, class or group. -/
def baseOk : Tok → Bool
  | .rep _ _ => false
  | _ => true

mutual
/-- Well-formedness of a body token: class and repetition-specifier
characters are plain, groups contain well-formed tokens, repetition bases
are not themselves repetitions. -/
def goodB : Tok → Bool
  | .ch c => plainB c
  | .cls s => s.all plainB
  | .grp ts => goodListB ts
  | .rep b info => baseOk b && goodB b && info.all plainB

def goodListB : List Tok → Bool
  | [] => true
  | t :: ts => goodB t && goodListB ts
end

mutual
/-- Concrete pattern text of a token. -/
def encodeTok : Tok → List Char
  | .ch c => [c]
  | .cls s => '[' :: s ++ [']']
  | .grp ts => '(' :: encodeList ts ++ [')']
  | .rep b info => encodeTok b ++ '{' :: info ++ ['}']

def encodeList : List Tok → List Char
  | [] => []
  | t :: ts => encodeTok t ++ encodeList ts
end

mutual
/-- Structural reverse of a token: classes reverse their member order,
groups reverse their token list, repetition specifiers stay attached. -/
def revTok : Tok → Tok
  | .ch c => .ch c
  | .cls s => .cls s.reverse
  | .grp ts => .grp (revList ts)
  | .rep b info => .rep (revTok b) info

def revList : List Tok → List Tok
  | [] => []
  | t :: ts => revList ts ++ [revTok t]
end

mutual
/-- Character-wise complement of a token. -/
def ccTok : Tok → Tok
  | .ch c => .ch (complement_char c)
  | .cls s => .cls (s.map complement_char)
  | .grp ts => .grp (ccList ts)
  | .rep b info => .rep (ccTok b) (info.map complement_char)

def ccList : List Tok → List Tok
  | [] => []
  | t :: ts => ccTok t :: ccList ts
end

/-- A full pattern: optional `<` prefix anchor, body tokens, optional `>`
suffix anchor. -/
def anchorWrap (pre : Bool) (ts : List Tok) (post : Bool) : List Char :=
  (if pre then ['<'] else []) ++ encodeList ts ++ (if post then ['>'] else [])

end PatternConverter

namespace PatternConverter


@[simp] lemma encodeTok_ch (c : Char) : encodeTok (Tok.ch c) = [c] := rfl

@[simp] lemma encodeTok_cls (s : List Char) :
    encodeTok (Tok.cls s) = '[' :: s ++ [']'] := rfl

@[simp] lemma encodeTok_grp (ts : List Tok) :
    encodeTok (Tok.grp ts) = '(' :: encodeList ts ++ [')'] := rfl

@[simp] lemma encodeTok_rep (b : Tok) (info : List Char) :
    encodeTok (Tok.rep b info) = encodeTok b ++ '{' :: info ++ ['}'] := rfl

@[simp] lemma encodeList_nil : encodeList [] = [] := rfl

@[simp] lemma encodeList_cons (t : Tok) (ts : List Tok) :
    encodeList (t :: ts) = encodeTok t ++ encodeList ts := rfl

@[simp] lemma revTok_ch (c : Char) : revTok (Tok.ch c) = Tok.ch c := rfl

@[simp] lemma revTok_cls (s : List Char) :
    revTok (Tok.cls s) = Tok.cls s.reverse := rfl

@[simp] lemma revTok_grp (ts : List Tok) :
    revTok (Tok.grp ts) = Tok.grp (revList ts) := rfl

@[simp] lemma revTok_rep (b : Tok) (info : List Char) :
    revTok (Tok.rep b info) = Tok.rep (revTok b) info := rfl

@[simp] lemma revList_nil : revList [] = [] := rfl

@[simp] lemma revList_cons (t : Tok) (ts : List Tok) :
    revList (t :: ts) = revList ts ++ [revTok t] := rfl

@[simp] lemma ccTok_ch (c : Char) :
    ccTok (Tok.ch c) = Tok.ch (complement_char c) := rfl

@[simp] lemma ccTok_cls (s : List Char) :
    ccTok (Tok.cls s) = Tok.cls (s.map complement_char) := rfl

@[simp] lemma ccTok_grp (ts : List Tok) :
    ccTok (Tok.grp ts) = Tok.grp (ccList ts) := rfl

@[simp] lemma ccTok_rep (b : Tok) (info : List Char) :
    ccTok (Tok.rep b info) = Tok.rep (ccTok b) (info.map complement_char) := rfl

@[simp] lemma ccList_nil : ccList [] = [] := rfl

@[simp] lemma ccList_cons (t : Tok) (ts : List Tok) :
    ccList (t :: ts) = ccTok t :: ccList ts := rfl

@[simp] lemma goodB_ch (c : Char) : goodB (Tok.ch c) = plainB c := rfl

@[simp] lemma goodB_cls (s : List Char) :
    goodB (Tok.cls s) = s.all plainB := rfl

@[simp] lemma goodB_grp (ts : List Tok) :
    goodB (Tok.grp ts) = goodListB ts := rfl

@[simp] lemma goodB_rep (b : Tok) (info : List Char) :
    goodB (Tok.rep b info) = (baseOk b && goodB b && info.all plainB) := rfl

@[simp] lemma goodListB_nil : goodListB [] = true := rfl

@[simp] lemma goodListB_cons (t : Tok) (ts : List Tok) :
    goodListB (t :: ts) = (goodB t && goodListB ts) := rfl

lemma egSub_nil (closer : Char) (acc : List Char) :
    (egSub closer acc []).val
      = (if closer = '}' then acc ++ ['}'] else [closer], []) := by
  rw [egSub.eq_def]

lemma egSub_opener_round (closer : Char) (acc : List Char) (rest : List Char)
    (hne : closer ≠ '}') :
    (egSub closer acc (openerOf closer :: rest)).val
      = (openerOf closer :: acc ++ [closer], rest) := by
  rw [egSub.eq_def]
  simp [hne]

lemma egSub_plain (closer : Char) (acc : List Char) (c : Char)
    (rest : List Char) (h1 : c ≠ openerOf closer)
    (h2 : ¬(c = ')' ∨ c = ']' ∨ c = '}')) :
    (egSub closer acc (c :: rest)).val
      = (egSub closer (if closer = '}' then c :: acc else acc ++ [c]) rest).val := by
  rw [egSub.eq_def]
  simp [h1, h2]

lemma egSub_nested (closer : Char) (acc : List Char) (c : Char)
    (rest : List Char) (h1 : c ≠ openerOf closer)
    (h2 : c = ')' ∨ c = ']' ∨ c = '}') :
    (egSub closer acc (c :: rest)).val
      = (egSub closer
          (if closer = '}' then acc else acc ++ (egSub c [] rest).val.1)
          (egSub c [] rest).val.2).val := by
  rw [egSub.eq_def]
  dsimp only
  rw [if_neg h1, if_pos h2]

lemma egSub_brace_open_nil (acc : List Char) :
    (egSub '}' acc ['{']).val = ('{' :: acc ++ ['}'], []) := by
  rw [egSub.eq_def]
  simp [openerOf]

lemma egSub_brace_open_plainrep (acc : List Char) (r : Char)
    (rest2 : List Char) (hr : ¬(r = ')' ∨ r = ']')) :
    (egSub '}' acc ('{' :: r :: rest2)).val
      = (r :: '{' :: acc ++ ['}'], rest2) := by
  rw [egSub.eq_def]
  simp [openerOf, hr]

lemma egSub_brace_open_grouprep (acc : List Char) (r : Char)
    (rest2 : List Char) (hr : r = ')' ∨ r = ']') :
    (egSub '}' acc ('{' :: r :: rest2)).val
      = ((egSub r [] rest2).val.1 ++ '{' :: acc ++ ['}'],
         (egSub r [] rest2).val.2) := by
  rw [egSub.eq_def]
  simp [openerOf, hr]

lemma reverse_loop_nil (result : List Char) :
    reverse_loop [] result = result := by
  rw [reverse_loop.eq_def]

lemma reverse_loop_plain (c : Char) (rest result : List Char)
    (h : ¬(c = ')' ∨ c = ']' ∨ c = '}')) :
    reverse_loop (c :: rest) result = reverse_loop rest (result ++ [c]) := by
  rw [reverse_loop.eq_def]
  simp [h]

lemma reverse_loop_closer (c : Char) (rest result : List Char)
    (h : c = ')' ∨ c = ']' ∨ c = '}') :
    reverse_loop (c :: rest) result
      = reverse_loop (egSub c [] rest).val.2
          (result ++ (egSub c [] rest).val.1) := by
  rw [reverse_loop.eq_def]
  simp [h]

lemma plainB_spec (c : Char) (h : plainB c = true) :
    c ≠ '(' ∧ c ≠ ')' ∧ c ≠ '[' ∧ c ≠ ']' ∧ c ≠ '{' ∧ c ≠ '}' := by
  simp [plainB] at h
  tauto

lemma plain_not_closer (c : Char) (h : plainB c = true) :
    ¬(c = ')' ∨ c = ']' ∨ c = '}') := by
  obtain ⟨_, h2, _, h4, _, h6⟩ := plainB_spec c h
  simp [h2, h4, h6]

lemma plain_ne_opener (c closer : Char) (h : plainB c = true) :
    c ≠ openerOf closer := by
  obtain ⟨h1, _, h3, _, h5, _⟩ := plainB_spec c h
  unfold openerOf
  split
  · exact h1
  · split
    · exact h3
    · exact h5

lemma egSub_consume_plain_round (closer : Char)
    (hcl : closer = ')' ∨ closer = ']') :
    ∀ (u : List Char), (∀ c ∈ u, plainB c = true) →
      ∀ (acc rest : List Char),
        (egSub closer acc (u ++ rest)).val
          = (egSub closer (acc ++ u) rest).val := by
  have hne : closer ≠ '}' := by rcases hcl with h | h <;> simp [h]
  intro u
  induction u with
  | nil => intro _ acc rest; simp
  | cons d u ih =>
    intro hu acc rest
    have hd : plainB d = true := hu d (List.mem_cons_self d u)
    have hrest : ∀ c ∈ u, plainB c = true :=
      fun c hc => hu c (List.mem_cons_of_mem d hc)
    rw [List.cons_append,
      egSub_plain closer acc d (u ++ rest) (plain_ne_opener d closer hd)
        (plain_not_closer d hd)]
    rw [if_neg hne, ih hrest (acc ++ [d]) rest]
    simp

lemma egSub_consume_plain_brace :
    ∀ (u : List Char), (∀ c ∈ u, plainB c = true) →
      ∀ (acc rest : List Char),
        (egSub '}' acc (u ++ rest)).val
          = (egSub '}' (u.reverse ++ acc) rest).val := by
  intro u
  induction u with
  | nil => intro _ acc rest; simp
  | cons d u ih =>
    intro hu acc rest
    have hd : plainB d = true := hu d (List.mem_cons_self d u)
    have hrest : ∀ c ∈ u, plainB c = true :=
      fun c hc => hu c (List.mem_cons_of_mem d hc)
    rw [List.cons_append,
      egSub_plain '}' acc d (u ++ rest) (plain_ne_opener d '}' hd)
        (plain_not_closer d hd)]
    rw [if_pos rfl, ih hrest (d :: acc) rest]
    simp

lemma egSub_cls (u : List Char) (hu : ∀ c ∈ u, plainB c = true)
    (acc stack : List Char) :
    (egSub ']' acc (u ++ '[' :: stack)).val
      = ('[' :: (acc ++ u) ++ [']'], stack) := by
  rw [egSub_consume_plain_round ']' (Or.inr rfl) u hu acc ('[' :: stack)]
  have h : openerOf ']' = '[' := by decide
  rw [← h, egSub_opener_round ']' (acc ++ u) stack (by decide), h]


lemma goodListB_mem {ts : List Tok} (h : goodListB ts = true) {t : Tok}
    (ht : t ∈ ts) : goodB t = true := by
  induction ts with
  | nil => cases ht
  | cons t0 ts ih =>
    rw [goodListB_cons, Bool.and_eq_true] at h
    rcases List.mem_cons.mp ht with h0 | h0
    · exact h0 ▸ h.1
    · exact ih h.2 h0

lemma encodeList_append (a b : List Tok) :
    encodeList (a ++ b) = encodeList a ++ encodeList b := by
  induction a with
  | nil => simp
  | cons t a ih => simp [ih]

lemma revList_append (a b : List Tok) :
    revList (a ++ b) = revList b ++ revList a := by
  induction a with
  | nil => simp
  | cons t a ih => simp [ih]

lemma encodeTok_length_le_of_mem {t : Tok} {ts : List Tok} (h : t ∈ ts) :
    (encodeTok t).length ≤ (encodeList ts).length := by
  induction ts with
  | nil => cases h
  | cons t0 ts ih =>
    rw [encodeList_cons, List.length_append]
    rcases List.mem_cons.mp h with h0 | h0
    · subst h0; omega
    · have := ih h0; omega

/-- After a `)` closer is popped, popping the reversed encoding of a
well-formed token appends the reversed token text to the internal-chars
accumulator. -/
def ConsumeTok (t : Tok) : Prop :=
  ∀ acc stack, (egSub ')' acc ((encodeTok t).reverse ++ stack)).val
    = (egSub ')' (acc ++ encodeTok (revTok t)) stack).val

/-- Extraction of a parenthesised group from the reversed encoding of its
token list. -/
def EGrpP (ts : List Tok) : Prop :=
  ∀ acc stack, (egSub ')' acc ((encodeList ts).reverse ++ '(' :: stack)).val
    = ('(' :: (acc ++ encodeList (revList ts)) ++ [')'], stack)

/-- Extraction of a repetition `base{info}` from its reversed encoding:
the base is re-extracted (reversed) and reattached before the braces. -/
def EBraceP (b : Tok) (info : List Char) : Prop :=
  ∀ stack,
    (egSub '}' []
        (info.reverse ++ ('{' :: ((encodeTok b).reverse ++ stack)))).val
      = (encodeTok (revTok b) ++ '{' :: info ++ ['}'], stack)

lemma egrp_of_consume (ts : List Tok) (hcons : ∀ t ∈ ts, ConsumeTok t) :
    EGrpP ts := by
  induction ts using List.reverseRecOn with
  | nil =>
    intro acc stack
    simp only [encodeList_nil, List.reverse_nil, List.nil_append]
    rw [show ('(' : Char) = openerOf ')' from by decide,
      egSub_opener_round ')' acc stack (by decide)]
    simp
  | append_singleton ts t ih =>
    intro acc stack
    rw [encodeList_append, List.reverse_append]
    simp only [encodeList_cons, encodeList_nil, List.append_nil,
      List.append_assoc]
    rw [show (encodeTok t ++ [] : List Char) = encodeTok t from by simp]
    rw [List.append_assoc]
    rw [hcons t (by simp) acc ((encodeList ts).reverse ++ '(' :: stack)]
    rw [ih (fun t' ht' => hcons t' (by simp [ht']))
      (acc ++ encodeTok (revTok t)) stack]
    rw [revList_append]
    simp [encodeList_append]

lemma ebrace_of (b : Tok) (info : List Char)
    (hinfo : ∀ c ∈ info, plainB c = true) (hb : goodB b = true)
    (hbase : baseOk b = true) (hgrp : ∀ ts, b = .grp ts → EGrpP ts) :
    EBraceP b info := by
  intro stack
  rw [egSub_consume_plain_brace info.reverse
    (fun c hc => hinfo c (List.mem_reverse.mp hc)) []
    ('{' :: ((encodeTok b).reverse ++ stack))]
  rw [List.reverse_reverse, List.append_nil]
  match b with
  | .ch c =>
    have hc : plainB c = true := hb
    rw [show (encodeTok (Tok.ch c)).reverse = [c] from by simp]
    rw [show [c] ++ stack = c :: stack from rfl]
    rw [egSub_brace_open_plainrep info c stack (by
      obtain ⟨_, h2, _, h4, _, _⟩ := plainB_spec c hc
      simp [h2, h4])]
    simp
  | .cls s =>
    have hs : ∀ c ∈ s, plainB c = true := by
      rw [goodB_cls, List.all_eq_true] at hb
      intro c hc; exact hb c hc
    rw [show (encodeTok (Tok.cls s)).reverse ++ stack
        = ']' :: (s.reverse ++ '[' :: stack) from by simp]
    rw [egSub_brace_open_grouprep info ']' (s.reverse ++ '[' :: stack)
      (Or.inr rfl)]
    rw [egSub_cls s.reverse (fun c hc => hs c (List.mem_reverse.mp hc)) []
      stack]
    simp
  | .grp ts =>
    rw [show (encodeTok (Tok.grp ts)).reverse ++ stack
        = ')' :: ((encodeList ts).reverse ++ '(' :: stack) from by simp]
    rw [egSub_brace_open_grouprep info ')'
      ((encodeList ts).reverse ++ '(' :: stack) (Or.inl rfl)]
    rw [hgrp ts rfl [] stack]
    simp
  | .rep _ _ => simp [baseOk] at hbase


lemma encodeTok_grp_length (ts : List Tok) :
    (encodeTok (Tok.grp ts)).length = (encodeList ts).length + 2 := by
  simp

lemma consume_all :
    ∀ n : Nat, ∀ t : Tok, goodB t = true → (encodeTok t).length ≤ n →
      ConsumeTok t := by
  intro n
  induction n using Nat.strong_induction_on with
  | _ n ih =>
    intro t hg hlen
    cases t with
    | ch c =>
      intro acc stack
      have hc : plainB c = true := hg
      rw [show (encodeTok (Tok.ch c)).reverse ++ stack = c :: stack from by
        simp]
      rw [egSub_plain ')' acc c stack (plain_ne_opener c ')' hc)
        (plain_not_closer c hc)]
      rw [if_neg (by decide)]
      simp
    | cls s =>
      intro acc stack
      have hs : ∀ c ∈ s, plainB c = true := by
        rw [goodB_cls, List.all_eq_true] at hg
        exact hg
      rw [show (encodeTok (Tok.cls s)).reverse ++ stack
          = ']' :: (s.reverse ++ '[' :: stack) from by simp]
      rw [egSub_nested ')' acc ']' (s.reverse ++ '[' :: stack) (by decide)
        (by simp)]
      rw [egSub_cls s.reverse (fun c hc => hs c (List.mem_reverse.mp hc)) []
        stack]
      rw [if_neg (by decide)]
      simp
    | grp ts =>
      have hgood : goodListB ts = true := hg
      have hmem : ∀ t' ∈ ts, ConsumeTok t' := by
        intro t' ht'
        refine ih (encodeTok t').length ?_ t' (goodListB_mem hgood ht') le_rfl
        have h1 := encodeTok_length_le_of_mem ht'
        have h2 := encodeTok_grp_length ts
        omega
      have hE := egrp_of_consume ts hmem
      intro acc stack
      rw [show (encodeTok (Tok.grp ts)).reverse ++ stack
          = ')' :: ((encodeList ts).reverse ++ '(' :: stack) from by simp]
      rw [egSub_nested ')' acc ')' ((encodeList ts).reverse ++ '(' :: stack)
        (by decide) (by simp)]
      rw [hE [] stack]
      rw [if_neg (by decide)]
      simp
    | rep b info =>
      rw [goodB_rep, Bool.and_eq_true, Bool.and_eq_true] at hg
      obtain ⟨⟨hbase, hb⟩, hinfo0⟩ := hg
      have hinfo : ∀ c ∈ info, plainB c = true := by
        rw [List.all_eq_true] at hinfo0
        exact hinfo0
      have hlen2 : (encodeTok b).length + info.length + 2 ≤ n := by
        have : (encodeTok (Tok.rep b info)).length
            = (encodeTok b).length + info.length + 2 := by
          simp only [encodeTok_rep, List.length_append, List.length_cons,
            List.length_nil]
          omega
        omega
      have hgrp : ∀ ts, b = Tok.grp ts → EGrpP ts := by
        intro ts hts
        refine egrp_of_consume ts (fun t' ht' => ?_)
        refine ih (encodeTok t').length ?_ t'
          (goodListB_mem (by rw [hts] at hb; exact hb) ht') le_rfl
        have h1 := encodeTok_length_le_of_mem ht'
        have h2 := encodeTok_grp_length ts
        rw [hts] at hlen2
        omega
      have hEB := ebrace_of b info hinfo hb hbase hgrp
      intro acc stack
      rw [show (encodeTok (Tok.rep b info)).reverse ++ stack
          = '}' :: (info.reverse ++ ('{' :: ((encodeTok b).reverse ++ stack)))
          from by simp]
      rw [egSub_nested ')' acc '}'
        (info.reverse ++ ('{' :: ((encodeTok b).reverse ++ stack)))
        (by decide) (by simp)]
      rw [hEB stack]
      rw [if_neg (by decide)]
      simp


lemma goodListB_append (a b : List Tok) :
    goodListB (a ++ b) = (goodListB a && goodListB b) := by
  induction a with
  | nil => simp
  | cons t a ih => simp [ih, Bool.and_assoc]

lemma loop_consume (t : Tok) (hg : goodB t = true) :
    ∀ stack result, reverse_loop ((encodeTok t).reverse ++ stack) result
      = reverse_loop stack (result ++ encodeTok (revTok t)) := by
  cases t with
  | ch c =>
    intro stack result
    have hc : plainB c = true := hg
    rw [show (encodeTok (Tok.ch c)).reverse ++ stack = c :: stack from by simp]
    rw [reverse_loop_plain c stack result (plain_not_closer c hc)]
    simp
  | cls s =>
    intro stack result
    have hs : ∀ c ∈ s, plainB c = true := by
      rw [goodB_cls, List.all_eq_true] at hg
      exact hg
    rw [show (encodeTok (Tok.cls s)).reverse ++ stack
        = ']' :: (s.reverse ++ '[' :: stack) from by simp]
    rw [reverse_loop_closer ']' (s.reverse ++ '[' :: stack) result (by simp)]
    rw [egSub_cls s.reverse (fun c hc => hs c (List.mem_reverse.mp hc)) []
      stack]
    simp
  | grp ts =>
    have hgood : goodListB ts = true := hg
    have hE := egrp_of_consume ts (fun t' ht' =>
      consume_all (encodeTok t').length t' (goodListB_mem hgood ht') le_rfl)
    intro stack result
    rw [show (encodeTok (Tok.grp ts)).reverse ++ stack
        = ')' :: ((encodeList ts).reverse ++ '(' :: stack) from by simp]
    rw [reverse_loop_closer ')' ((encodeList ts).reverse ++ '(' :: stack)
      result (by simp)]
    rw [hE [] stack]
    simp
  | rep b info =>
    rw [goodB_rep, Bool.and_eq_true, Bool.and_eq_true] at hg
    obtain ⟨⟨hbase, hb⟩, hinfo0⟩ := hg
    have hinfo : ∀ c ∈ info, plainB c = true := by
      rw [List.all_eq_true] at hinfo0
      exact hinfo0
    have hgrp : ∀ ts, b = Tok.grp ts → EGrpP ts := by
      intro ts hts
      refine egrp_of_consume ts (fun t' ht' => ?_)
      exact consume_all (encodeTok t').length t'
        (goodListB_mem (by rw [hts] at hb; exact hb) ht') le_rfl
    have hEB := ebrace_of b info hinfo hb hbase hgrp
    intro stack result
    rw [show (encodeTok (Tok.rep b info)).reverse ++ stack
        = '}' :: (info.reverse ++ ('{' :: ((encodeTok b).reverse ++ stack)))
        from by simp]
    rw [reverse_loop_closer '}'
      (info.reverse ++ ('{' :: ((encodeTok b).reverse ++ stack))) result
      (by simp)]
    rw [hEB stack]
    simp

lemma reverse_loop_encodes (ts : List Tok) (hg : goodListB ts = true) :
    ∀ result, reverse_loop (encodeList ts).reverse result
      = result ++ encodeList (revList ts) := by
  induction ts using List.reverseRecOn with
  | nil =>
    intro result
    simp [reverse_loop_nil]
  | append_singleton ts t ih =>
    rw [goodListB_append, Bool.and_eq_true] at hg
    obtain ⟨hts, ht0⟩ := hg
    have ht : goodB t = true := by
      rw [goodListB_cons, Bool.and_eq_true] at ht0
      exact ht0.1
    intro result
    rw [encodeList_append, List.reverse_append]
    rw [show (encodeList [t]).reverse = (encodeTok t).reverse from by simp]
    rw [loop_consume t ht ((encodeList ts).reverse) result]
    rw [ih hts (result ++ encodeTok (revTok t))]
    rw [revList_append]
    simp [encodeList_append]

/-- `_reverse_pattern` maps the encoding of a well-formed token list to the
encoding of its structural reverse. -/
lemma reverse_pattern_encodes (ts : List Tok) (hg : goodListB ts = true) :
    reverse_pattern (encodeList ts) = encodeList (revList ts) := by
  rw [reverse_pattern, reverse_loop_encodes ts hg []]
  simp


lemma complement_char_fix (c : Char) (h1 : c ≠ 'A') (h2 : c ≠ 'T')
    (h3 : c ≠ 'C') (h4 : c ≠ 'G') (h5 : c ≠ 'R') (h6 : c ≠ 'Y')
    (h7 : c ≠ 'S') (h8 : c ≠ 'W') (h9 : c ≠ 'M') (h10 : c ≠ 'K')
    (h11 : c ≠ 'V') (h12 : c ≠ 'H') (h13 : c ≠ 'D') (h14 : c ≠ 'B') :
    complement_char c = c := by
  unfold complement_char
  split <;> simp_all

lemma complement_char_involution (c : Char) :
    complement_char (complement_char c) = c := by
  by_cases h1 : c = 'A'
  · subst h1; rfl
  by_cases h2 : c = 'T'
  · subst h2; rfl
  by_cases h3 : c = 'C'
  · subst h3; rfl
  by_cases h4 : c = 'G'
  · subst h4; rfl
  by_cases h5 : c = 'R'
  · subst h5; rfl
  by_cases h6 : c = 'Y'
  · subst h6; rfl
  by_cases h7 : c = 'S'
  · subst h7; rfl
  by_cases h8 : c = 'W'
  · subst h8; rfl
  by_cases h9 : c = 'M'
  · subst h9; rfl
  by_cases h10 : c = 'K'
  · subst h10; rfl
  by_cases h11 : c = 'V'
  · subst h11; rfl
  by_cases h12 : c = 'H'
  · subst h12; rfl
  by_cases h13 : c = 'D'
  · subst h13; rfl
  by_cases h14 : c = 'B'
  · subst h14; rfl
  have hfix := complement_char_fix c h1 h2 h3 h4 h5 h6 h7 h8 h9 h10 h11 h12
    h13 h14
  rw [hfix, hfix]

lemma complement_char_cases (c : Char) :
    complement_char c = c ∨ (plainB (complement_char c) = true
      ∧ complement_char c ≠ '<' ∧ complement_char c ≠ '>') := by
  by_cases h1 : c = 'A'
  · subst h1; right; refine ⟨by decide, by decide, by decide⟩
  by_cases h2 : c = 'T'
  · subst h2; right; refine ⟨by decide, by decide, by decide⟩
  by_cases h3 : c = 'C'
  · subst h3; right; refine ⟨by decide, by decide, by decide⟩
  by_cases h4 : c = 'G'
  · subst h4; right; refine ⟨by decide, by decide, by decide⟩
  by_cases h5 : c = 'R'
  · subst h5; right; refine ⟨by decide, by decide, by decide⟩
  by_cases h6 : c = 'Y'
  · subst h6; right; refine ⟨by decide, by decide, by decide⟩
  by_cases h7 : c = 'S'
  · subst h7; right; refine ⟨by decide, by decide, by decide⟩
  by_cases h8 : c = 'W'
  · subst h8; right; refine ⟨by decide, by decide, by decide⟩
  by_cases h9 : c = 'M'
  · subst h9; right; refine ⟨by decide, by decide, by decide⟩
  by_cases h10 : c = 'K'
  · subst h10; right; refine ⟨by decide, by decide, by decide⟩
  by_cases h11 : c = 'V'
  · subst h11; right; refine ⟨by decide, by decide, by decide⟩
  by_cases h12 : c = 'H'
  · subst h12; right; refine ⟨by decide, by decide, by decide⟩
  by_cases h13 : c = 'D'
  · subst h13; right; refine ⟨by decide, by decide, by decide⟩
  by_cases h14 : c = 'B'
  · subst h14; right; refine ⟨by decide, by decide, by decide⟩
  left
  exact complement_char_fix c h1 h2 h3 h4 h5 h6 h7 h8 h9 h10 h11 h12 h13 h14

lemma plainB_cc (c : Char) (h : plainB c = true) :
    plainB (complement_char c) = true := by
  rcases complement_char_cases c with hc | hc
  · rw [hc]; exact h
  · exact hc.1

lemma cc_ne_lt (c : Char) (h : c ≠ '<') : complement_char c ≠ '<' := by
  rcases complement_char_cases c with hc | hc
  · rw [hc]; exact h
  · exact hc.2.1

lemma cc_ne_gt (c : Char) (h : c ≠ '>') : complement_char c ≠ '>' := by
  rcases complement_char_cases c with hc | hc
  · rw [hc]; exact h
  · exact hc.2.2

lemma ccList_append (a b : List Tok) :
    ccList (a ++ b) = ccList a ++ ccList b := by
  induction a with
  | nil => simp
  | cons t a ih => simp [ih]

lemma encodeTok_ne_nil (t : Tok) : encodeTok t ≠ [] := by
  cases t with
  | ch c => simp
  | cls s => simp
  | grp ts => simp
  | rep b info =>
    rw [encodeTok_rep]
    intro h
    have := List.append_eq_nil.mp h
    simp at this

lemma revList_eq_nil_iff (ts : List Tok) : revList ts = [] ↔ ts = [] := by
  cases ts with
  | nil => simp
  | cons t ts =>
    simp only [revList_cons]
    constructor
    · intro h
      exact absurd h (by simp)
    · intro h
      cases h

lemma ccList_eq_nil_iff (ts : List Tok) : ccList ts = [] ↔ ts = [] := by
  cases ts with
  | nil => simp
  | cons t ts => simp


lemma map_cc_encodeList_of (ts : List Tok)
    (h : ∀ u ∈ ts, (encodeTok u).map complement_char = encodeTok (ccTok u)) :
    (encodeList ts).map complement_char = encodeList (ccList ts) := by
  induction ts with
  | nil => simp
  | cons t ts ih =>
    simp only [encodeList_cons, ccList_cons, List.map_append]
    rw [h t (List.mem_cons_self t ts),
      ih (fun u hu => h u (List.mem_cons_of_mem t hu))]

lemma map_cc_encode :
    ∀ n : Nat, ∀ t : Tok, (encodeTok t).length ≤ n →
      (encodeTok t).map complement_char = encodeTok (ccTok t) := by
  intro n
  induction n using Nat.strong_induction_on with
  | _ n ih =>
    intro t hlen
    cases t with
    | ch c => simp
    | cls s =>
      simp [show complement_char '[' = '[' from rfl,
        show complement_char ']' = ']' from rfl]
    | grp ts =>
      simp only [encodeTok_grp, ccTok_grp, List.map_cons, List.map_append,
        show complement_char '(' = '(' from rfl,
        show complement_char ')' = ')' from rfl, List.map_nil]
      rw [map_cc_encodeList_of ts (fun u hu => ?_)]
      refine ih (encodeTok u).length ?_ u le_rfl
      have h1 := encodeTok_length_le_of_mem hu
      have h2 := encodeTok_grp_length ts
      omega
    | rep b info =>
      simp only [encodeTok_rep, ccTok_rep, List.map_append, List.map_cons,
        show complement_char '{' = '{' from rfl,
        show complement_char '}' = '}' from rfl, List.map_nil]
      rw [ih (encodeTok b).length ?_ b le_rfl]
      simp only [encodeTok_rep, List.length_append, List.length_cons,
        List.length_nil] at hlen
      omega

lemma goodListB_iff_mem (ts : List Tok) :
    goodListB ts = true ↔ ∀ t ∈ ts, goodB t = true := by
  induction ts with
  | nil => simp
  | cons t ts ih =>
    rw [goodListB_cons, Bool.and_eq_true, ih]
    constructor
    · rintro ⟨h1, h2⟩ u hu
      rcases List.mem_cons.mp hu with h | h
      · exact h ▸ h1
      · exact h2 u h
    · intro h
      exact ⟨h t (List.mem_cons_self t ts),
        fun u hu => h u (List.mem_cons_of_mem t hu)⟩

lemma baseOk_ccTok (b : Tok) (h : baseOk b = true) : baseOk (ccTok b) = true := by
  cases b <;> simp_all [baseOk]

lemma baseOk_revTok (b : Tok) (h : baseOk b = true) :
    baseOk (revTok b) = true := by
  cases b <;> simp_all [baseOk]

lemma mem_ccList_inv {u : Tok} {ts : List Tok} (hu : u ∈ ccList ts) :
    ∃ v ∈ ts, ccTok v = u := by
  induction ts with
  | nil => cases hu
  | cons t0 ts0 ih0 =>
    rcases List.mem_cons.mp hu with h | h
    · exact ⟨t0, List.mem_cons_self t0 ts0, h.symm⟩
    · obtain ⟨v, hv, hv2⟩ := ih0 h
      exact ⟨v, List.mem_cons_of_mem t0 hv, hv2⟩

lemma mem_revList_inv {u : Tok} {ts : List Tok} (hu : u ∈ revList ts) :
    ∃ v ∈ ts, revTok v = u := by
  induction ts with
  | nil => cases hu
  | cons t0 ts0 ih0 =>
    rw [revList_cons] at hu
    rcases List.mem_append.mp hu with h | h
    · obtain ⟨v, hv, hv2⟩ := ih0 h
      exact ⟨v, List.mem_cons_of_mem t0 hv, hv2⟩
    · refine ⟨t0, List.mem_cons_self t0 ts0, ?_⟩
      rw [List.mem_singleton] at h
      exact h.symm

lemma good_ccTok :
    ∀ n : Nat, ∀ t : Tok, goodB t = true → (encodeTok t).length ≤ n →
      goodB (ccTok t) = true := by
  intro n
  induction n using Nat.strong_induction_on with
  | _ n ih =>
    intro t hg hlen
    cases t with
    | ch c => exact plainB_cc c hg
    | cls s =>
      rw [goodB_cls, List.all_eq_true] at hg
      rw [ccTok_cls, goodB_cls, List.all_eq_true]
      intro c hc
      obtain ⟨d, hd, rfl⟩ := List.mem_map.mp hc
      exact plainB_cc d (hg d hd)
    | grp ts =>
      rw [goodB_grp, goodListB_iff_mem] at hg
      rw [ccTok_grp, goodB_grp, goodListB_iff_mem]
      intro u hu
      obtain ⟨v, hv, rfl⟩ := mem_ccList_inv hu
      refine ih (encodeTok v).length ?_ v (hg v hv) le_rfl
      have h1 := encodeTok_length_le_of_mem hv
      have h2 := encodeTok_grp_length ts
      omega
    | rep b info =>
      rw [goodB_rep, Bool.and_eq_true, Bool.and_eq_true] at hg
      obtain ⟨⟨hbase, hb⟩, hinfo⟩ := hg
      rw [ccTok_rep, goodB_rep, Bool.and_eq_true, Bool.and_eq_true]
      refine ⟨⟨baseOk_ccTok b hbase, ?_⟩, ?_⟩
      · refine ih (encodeTok b).length ?_ b hb le_rfl
        simp only [encodeTok_rep, List.length_append, List.length_cons,
          List.length_nil] at hlen
        omega
      · rw [List.all_eq_true] at hinfo ⊢
        intro c hc
        obtain ⟨d, hd, rfl⟩ := List.mem_map.mp hc
        exact plainB_cc d (hinfo d hd)

lemma good_revTok :
    ∀ n : Nat, ∀ t : Tok, goodB t = true → (encodeTok t).length ≤ n →
      goodB (revTok t) = true := by
  intro n
  induction n using Nat.strong_induction_on with
  | _ n ih =>
    intro t hg hlen
    cases t with
    | ch c => exact hg
    | cls s =>
      rw [goodB_cls, List.all_eq_true] at hg
      rw [revTok_cls, goodB_cls, List.all_eq_true]
      intro c hc
      exact hg c (List.mem_reverse.mp hc)
    | grp ts =>
      rw [goodB_grp, goodListB_iff_mem] at hg
      rw [revTok_grp, goodB_grp, goodListB_iff_mem]
      intro u hu
      obtain ⟨v, hv, rfl⟩ := mem_revList_inv hu
      refine ih (encodeTok v).length ?_ v (hg v hv) le_rfl
      have h1 := encodeTok_length_le_of_mem hv
      have h2 := encodeTok_grp_length ts
      omega
    | rep b info =>
      rw [goodB_rep, Bool.and_eq_true, Bool.and_eq_true] at hg
      obtain ⟨⟨hbase, hb⟩, hinfo⟩ := hg
      rw [revTok_rep, goodB_rep, Bool.and_eq_true, Bool.and_eq_true]
      refine ⟨⟨baseOk_revTok b hbase, ?_⟩, hinfo⟩
      refine ih (encodeTok b).length ?_ b hb le_rfl
      simp only [encodeTok_rep, List.length_append, List.length_cons,
        List.length_nil] at hlen
      omega


lemma mem_enc_ccList_of (ts : List Tok)
    (h : ∀ u ∈ ts, ∀ c ∈ encodeTok (ccTok u),
      ∃ d ∈ encodeTok u, c = complement_char d) :
    ∀ c ∈ encodeList (ccList ts),
      ∃ d ∈ encodeList ts, c = complement_char d := by
  induction ts with
  | nil => simp
  | cons t ts ih =>
    intro c hc
    simp only [ccList_cons, encodeList_cons] at hc
    rcases List.mem_append.mp hc with h0 | h0
    · obtain ⟨d, hd, rfl⟩ := h t (List.mem_cons_self t ts) c h0
      exact ⟨d, by simp [hd], rfl⟩
    · obtain ⟨d, hd, rfl⟩ :=
        ih (fun u hu => h u (List.mem_cons_of_mem t hu)) c h0
      exact ⟨d, by simp [hd], rfl⟩

lemma mem_enc_ccTok :
    ∀ n : Nat, ∀ t : Tok, (encodeTok t).length ≤ n →
      ∀ c ∈ encodeTok (ccTok t), ∃ d ∈ encodeTok t, c = complement_char d := by
  intro n
  induction n using Nat.strong_induction_on with
  | _ n ih =>
    intro t hlen
    cases t with
    | ch c0 =>
      intro c hc
      rw [ccTok_ch, encodeTok_ch, List.mem_singleton] at hc
      exact ⟨c0, by simp, hc⟩
    | cls s =>
      intro c hc
      rw [ccTok_cls, encodeTok_cls] at hc
      rcases List.mem_cons.mp hc with h0 | h0
      · exact ⟨'[', by simp, by rw [h0]; rfl⟩
      rcases List.mem_append.mp h0 with h1 | h1
      · obtain ⟨d, hd, rfl⟩ := List.mem_map.mp h1
        exact ⟨d, by simp [hd], rfl⟩
      · rw [List.mem_singleton] at h1
        exact ⟨']', by simp, by rw [h1]; rfl⟩
    | grp ts =>
      have hmem : ∀ u ∈ ts, ∀ c ∈ encodeTok (ccTok u),
          ∃ d ∈ encodeTok u, c = complement_char d := by
        intro u hu
        refine ih (encodeTok u).length ?_ u le_rfl
        have h1 := encodeTok_length_le_of_mem hu
        have h2 := encodeTok_grp_length ts
        omega
      intro c hc
      rw [ccTok_grp, encodeTok_grp] at hc
      rcases List.mem_cons.mp hc with h0 | h0
      · exact ⟨'(', by simp, by rw [h0]; rfl⟩
      rcases List.mem_append.mp h0 with h1 | h1
      · obtain ⟨d, hd, rfl⟩ := mem_enc_ccList_of ts hmem c h1
        exact ⟨d, by simp [hd], rfl⟩
      · rw [List.mem_singleton] at h1
        exact ⟨')', by simp, by rw [h1]; rfl⟩
    | rep b info =>
      have hb : ∀ c ∈ encodeTok (ccTok b),
          ∃ d ∈ encodeTok b, c = complement_char d := by
        refine ih (encodeTok b).length ?_ b le_rfl
        simp only [encodeTok_rep, List.length_append, List.length_cons,
          List.length_nil] at hlen
        omega
      intro c hc
      rw [ccTok_rep, encodeTok_rep] at hc
      rcases List.mem_append.mp hc with h0 | h0
      · rcases List.mem_append.mp h0 with h1 | h1
        · obtain ⟨d, hd, rfl⟩ := hb c h1
          exact ⟨d, by simp [hd], rfl⟩
        · rcases List.mem_cons.mp h1 with h2 | h2
          · exact ⟨'{', by simp, by rw [h2]; rfl⟩
          · obtain ⟨d, hd, rfl⟩ := List.mem_map.mp h2
            exact ⟨d, by simp [hd], rfl⟩
      · rw [List.mem_singleton] at h0
        exact ⟨'}', by simp, by rw [h0]; rfl⟩

lemma mem_enc_revList_of (ts : List Tok)
    (h : ∀ u ∈ ts, ∀ c ∈ encodeTok (revTok u), c ∈ encodeTok u) :
    ∀ c ∈ encodeList (revList ts), c ∈ encodeList ts := by
  induction ts with
  | nil => simp
  | cons t ts ih =>
    intro c hc
    rw [revList_cons, encodeList_append] at hc
    rcases List.mem_append.mp hc with h0 | h0
    · have := ih (fun u hu => h u (List.mem_cons_of_mem t hu)) c h0
      simp [this]
    · simp only [encodeList_cons, encodeList_nil, List.append_nil] at h0
      have := h t (List.mem_cons_self t ts) c h0
      simp [this]

lemma mem_enc_revTok :
    ∀ n : Nat, ∀ t : Tok, (encodeTok t).length ≤ n →
      ∀ c ∈ encodeTok (revTok t), c ∈ encodeTok t := by
  intro n
  induction n using Nat.strong_induction_on with
  | _ n ih =>
    intro t hlen
    cases t with
    | ch c0 => intro c hc; exact hc
    | cls s =>
      intro c hc
      rw [revTok_cls, encodeTok_cls] at hc
      rw [encodeTok_cls]
      rcases List.mem_cons.mp hc with h0 | h0
      · simp [h0]
      rcases List.mem_append.mp h0 with h1 | h1
      · have := List.mem_reverse.mp h1
        simp [this]
      · simp [List.mem_singleton.mp h1]
    | grp ts =>
      have hmem : ∀ u ∈ ts, ∀ c ∈ encodeTok (revTok u), c ∈ encodeTok u := by
        intro u hu
        refine ih (encodeTok u).length ?_ u le_rfl
        have h1 := encodeTok_length_le_of_mem hu
        have h2 := encodeTok_grp_length ts
        omega
      intro c hc
      rw [revTok_grp, encodeTok_grp] at hc
      rw [encodeTok_grp]
      rcases List.mem_cons.mp hc with h0 | h0
      · simp [h0]
      rcases List.mem_append.mp h0 with h1 | h1
      · have := mem_enc_revList_of ts hmem c h1
        simp [this]
      · simp [List.mem_singleton.mp h1]
    | rep b info =>
      have hb : ∀ c ∈ encodeTok (revTok b), c ∈ encodeTok b := by
        refine ih (encodeTok b).length ?_ b le_rfl
        simp only [encodeTok_rep, List.length_append, List.length_cons,
          List.length_nil] at hlen
        omega
      intro c hc
      rw [revTok_rep, encodeTok_rep] at hc
      rw [encodeTok_rep]
      rcases List.mem_append.mp hc with h0 | h0
      · rcases List.mem_append.mp h0 with h1 | h1
        · simp [hb c h1]
        · rcases List.mem_cons.mp h1 with h2 | h2
          · simp [h2]
          · simp [h2]
      · rw [List.mem_singleton] at h0
        simp [h0]

lemma rcrcList_of (ts : List Tok)
    (h : ∀ u ∈ ts, revTok (ccTok (revTok (ccTok u))) = u) :
    revList (ccList (revList (ccList ts))) = ts := by
  induction ts with
  | nil => simp
  | cons t ts ih =>
    rw [ccList_cons, revList_cons, ccList_append, revList_append]
    rw [ih (fun u hu => h u (List.mem_cons_of_mem t hu))]
    rw [show ccList [revTok (ccTok t)] = [ccTok (revTok (ccTok t))] from rfl]
    rw [show revList [ccTok (revTok (ccTok t))]
        = [revTok (ccTok (revTok (ccTok t)))] from rfl]
    rw [h t (List.mem_cons_self t ts)]
    rfl

lemma rcrcTok :
    ∀ n : Nat, ∀ t : Tok, (encodeTok t).length ≤ n →
      revTok (ccTok (revTok (ccTok t))) = t := by
  intro n
  induction n using Nat.strong_induction_on with
  | _ n ih =>
    intro t hlen
    cases t with
    | ch c => simp [complement_char_involution]
    | cls s =>
      simp [List.map_reverse, List.reverse_reverse, List.map_map,
        Function.comp_def, complement_char_involution]
    | grp ts =>
      simp only [ccTok_grp, revTok_grp]
      rw [rcrcList_of ts (fun u hu => ?_)]
      refine ih (encodeTok u).length ?_ u le_rfl
      have h1 := encodeTok_length_le_of_mem hu
      have h2 := encodeTok_grp_length ts
      omega
    | rep b info =>
      simp only [ccTok_rep, revTok_rep]
      rw [ih (encodeTok b).length ?_ b le_rfl]
      · simp [List.map_map, Function.comp_def, complement_char_involution]
      simp only [encodeTok_rep, List.length_append, List.length_cons,
        List.length_nil] at hlen
      omega


lemma map_cc_encodeList (ts : List Tok) :
    (encodeList ts).map complement_char = encodeList (ccList ts) :=
  map_cc_encodeList_of ts
    (fun u _ => map_cc_encode (encodeTok u).length u le_rfl)

lemma not_anchor_ccList (ts : List Tok) (hlt : '<' ∉ encodeList ts)
    (hgt : '>' ∉ encodeList ts) :
    '<' ∉ encodeList (ccList ts) ∧ '>' ∉ encodeList (ccList ts) := by
  have htrans := mem_enc_ccList_of ts
    (fun u _ => mem_enc_ccTok (encodeTok u).length u le_rfl)
  constructor
  · intro hmem
    obtain ⟨d, hd, heq⟩ := htrans '<' hmem
    by_cases hd2 : d = '<'
    · exact hlt (hd2 ▸ hd)
    · exact cc_ne_lt d hd2 heq.symm
  · intro hmem
    obtain ⟨d, hd, heq⟩ := htrans '>' hmem
    by_cases hd2 : d = '>'
    · exact hgt (hd2 ▸ hd)
    · exact cc_ne_gt d hd2 heq.symm

lemma not_anchor_revList (ts : List Tok) (hlt : '<' ∉ encodeList ts)
    (hgt : '>' ∉ encodeList ts) :
    '<' ∉ encodeList (revList ts) ∧ '>' ∉ encodeList (revList ts) := by
  have htrans := mem_enc_revList_of ts
    (fun u _ => mem_enc_revTok (encodeTok u).length u le_rfl)
  exact ⟨fun hmem => hlt (htrans '<' hmem), fun hmem => hgt (htrans '>' hmem)⟩

lemma encodeList_ne_nil (ts : List Tok) (h : ts ≠ []) :
    encodeList ts ≠ [] := by
  cases ts with
  | nil => exact absurd rfl h
  | cons t ts =>
    rw [encodeList_cons]
    intro h0
    exact encodeTok_ne_nil t (List.append_eq_nil.mp h0).1

lemma map_cc_anchorWrap (pre post : Bool) (ts : List Tok) :
    (anchorWrap pre ts post).map complement_char
      = (if pre then ['<'] else []) ++ encodeList (ccList ts)
          ++ (if post then ['>'] else []) := by
  rw [anchorWrap]
  simp only [List.map_append, map_cc_encodeList]
  cases pre <;> cases post <;> simp [show complement_char '<' = '<' from rfl,
    show complement_char '>' = '>' from rfl]

lemma complement_nucleotides_wrap (pre post : Bool) (ts : List Tok)
    (hlt : '<' ∉ encodeList ts) (hgt : '>' ∉ encodeList ts)
    (hne : ts = [] → pre = post) :
    complement_nucleotides (anchorWrap pre ts post)
      = (if pre then ['>'] else []) ++ encodeList (ccList ts)
          ++ (if post then ['<'] else []) := by
  by_cases hts : ts = []
  · subst hts
    have hpp := hne rfl
    cases pre with
    | false => rw [← hpp]; decide
    | true => rw [← hpp]; decide
  · obtain ⟨anl, ang⟩ := not_anchor_ccList ts hlt hgt
    have hBne : encodeList (ccList ts) ≠ [] :=
      encodeList_ne_nil (ccList ts) (fun h => hts ((ccList_eq_nil_iff ts).mp h))
    obtain ⟨b0, B0, hB⟩ := List.exists_cons_of_ne_nil hBne
    have hb0lt : b0 ≠ '<' := fun h => anl (by rw [hB, h]; simp)
    have hb0gt : b0 ≠ '>' := fun h => ang (by rw [hB, h]; simp)
    rcases List.eq_nil_or_concat (encodeList (ccList ts)) with hBc | ⟨B1, bl, hBc⟩
    · exact absurd hBc hBne
    rw [List.concat_eq_append] at hBc
    have hbllt : bl ≠ '<' := fun h => anl (by rw [hBc, h]; simp)
    have hblgt : bl ≠ '>' := fun h => ang (by rw [hBc, h]; simp)
    unfold complement_nucleotides
    cases pre with
    | true =>
      have hp : (anchorWrap true ts post).map complement_char
          = '<' :: (encodeList (ccList ts) ++ (if post then ['>'] else [])) := by
        rw [map_cc_anchorWrap]
        simp
      rw [hp]
      simp only [List.head?_cons, List.tail_cons, reduceIte]
      cases post with
      | true =>
        rw [show ('>' :: (encodeList (ccList ts)
            ++ (if (true : Bool) then ['>'] else [])))
            = ('>' :: encodeList (ccList ts)) ++ ['>'] from by simp]
        rw [List.getLast?_concat]
        simp only [reduceIte, List.dropLast_concat]
        simp
      | false =>
        rw [show ('>' :: (encodeList (ccList ts)
            ++ (if (false : Bool) then ['>'] else [])))
            = ('>' :: B1) ++ [bl] from by simp [hBc]]
        rw [List.getLast?_concat]
        simp only [if_neg (show ¬(some bl = some '>') from by simp [hblgt]),
          if_neg (show ¬(some bl = some '<') from by simp [hbllt])]
        simp [hBc]
    | false =>
      have hp : (anchorWrap false ts post).map complement_char
          = b0 :: (B0 ++ (if post then ['>'] else [])) := by
        rw [map_cc_anchorWrap]
        simp [hB]
      rw [hp]
      simp only [List.head?_cons, List.tail_cons]
      simp only [if_neg (show ¬(some b0 = some '<') from by simp [hb0lt]),
        if_neg (show ¬(some b0 = some '>') from by simp [hb0gt])]
      cases post with
      | true =>
        rw [show (b0 :: (B0 ++ (if (true : Bool) then ['>'] else [])))
            = (b0 :: B0) ++ ['>'] from by simp]
        rw [List.getLast?_concat]
        simp only [reduceIte, List.dropLast_concat]
        simp [hB]
      | false =>
        have hB0 : b0 :: B0 = B1 ++ [bl] := by rw [← hB, ← hBc]
        rw [show (b0 :: (B0 ++ (if (false : Bool) then ['>'] else [])))
            = B1 ++ [bl] from by simp [← hB0]]
        rw [List.getLast?_concat]
        simp only [if_neg (show ¬(some bl = some '>') from by simp [hblgt]),
          if_neg (show ¬(some bl = some '<') from by simp [hbllt])]
        simp [hBc]


lemma good_ccList (ts : List Tok) (h : goodListB ts = true) :
    goodListB (ccList ts) = true := by
  rw [goodListB_iff_mem] at h ⊢
  intro u hu
  obtain ⟨v, hv, rfl⟩ := mem_ccList_inv hu
  exact good_ccTok (encodeTok v).length v (h v hv) le_rfl

lemma good_revList (ts : List Tok) (h : goodListB ts = true) :
    goodListB (revList ts) = true := by
  rw [goodListB_iff_mem] at h ⊢
  intro u hu
  obtain ⟨v, hv, rfl⟩ := mem_revList_inv hu
  exact good_revTok (encodeTok v).length v (h v hv) le_rfl

/-- One application of `_get_reverse_complement` on a well-formed anchored
pattern: the anchors trade places and the body becomes the reversed
character-complemented token list. -/
lemma rc_wrap (pre post : Bool) (ts : List Tok) (hg : goodListB ts = true)
    (hlt : '<' ∉ encodeList ts) (hgt : '>' ∉ encodeList ts)
    (hne : ts = [] → pre = post) :
    get_reverse_complement (anchorWrap pre ts post)
      = anchorWrap post (revList (ccList ts)) pre := by
  rw [get_reverse_complement,
    complement_nucleotides_wrap pre post ts hlt hgt hne]
  have henc : (if pre then ['>'] else []) ++ encodeList (ccList ts)
      ++ (if post then ['<'] else [])
      = encodeList ((if pre then [Tok.ch '>'] else []) ++ ccList ts
          ++ (if post then [Tok.ch '<'] else [])) := by
    rw [encodeList_append, encodeList_append]
    cases pre <;> cases post <;> simp
  rw [henc]
  have hgood2 : goodListB ((if pre then [Tok.ch '>'] else []) ++ ccList ts
      ++ (if post then [Tok.ch '<'] else [])) = true := by
    rw [goodListB_append, goodListB_append, Bool.and_eq_true, Bool.and_eq_true]
    refine ⟨⟨?_, good_ccList ts hg⟩, ?_⟩
    · cases pre <;> decide
    · cases post <;> decide
  rw [reverse_pattern_encodes _ hgood2]
  rw [revList_append, revList_append]
  rw [encodeList_append, encodeList_append, anchorWrap]
  cases pre <;> cases post <;> simp

end PatternConverter

/-! ## Claim theorems -/

/-- C1: for every well-formed index table `T` (sorted ascending, non-empty)
and every offset `o` with `T[0] ≤ o` (in particular every `o` within
`[T[0], T[-1] + maxRecordSize]`), `get_name_offset o T` returns an element
of `T` that is ≤ `o` and is the greatest such element; consequently, for an
offset at or beyond the last entry it returns the last entry. -/
theorem C1_get_name_offset_greatest_le
    (T : List Nat) (o : Nat) (hs : T.Sorted (· ≤ ·)) (hne : T ≠ [])
    (hlo : T.getD 0 0 ≤ o) :
    FastaUtils.get_name_offset o T ∈ T ∧
    FastaUtils.get_name_offset o T ≤ o ∧
    (∀ x ∈ T, x ≤ o → x ≤ FastaUtils.get_name_offset o T) ∧
    (T.getLast hne ≤ o → FastaUtils.get_name_offset o T = T.getLast hne) := by
  have hlen : 0 < T.length := List.length_pos.mpr hne
  have hspec := FastaUtils.get_name_offset_loop_spec T o hs T.length 0
    (T.length - 1) (by omega) (by omega) (by omega) hlo
    (by intro i hi1 hi2; omega)
  rw [FastaUtils.get_name_offset, if_neg hne]
  refine ⟨hspec.1, hspec.2.1, hspec.2.2, ?_⟩
  intro hlast
  have hmem : T.getLast hne ∈ T := List.getLast_mem hne
  have h1 : T.getLast hne ≤
      FastaUtils.get_name_offset_loop T o T.length 0 (T.length - 1) :=
    hspec.2.2 _ hmem hlast
  have h2 : FastaUtils.get_name_offset_loop T o T.length 0 (T.length - 1)
      ≤ T.getLast hne := by
    rcases List.mem_iff_getElem.mp hspec.1 with ⟨i, hi, hxi⟩
    rw [← hxi, List.getLast_eq_getElem]
    rw [← List.getD_eq_getElem T 0 hi, ← List.getD_eq_getElem T 0 (by omega)]
    exact FastaUtils.sorted_getD_mono hs (by omega) (by omega)
  omega

/-- Witness for C1 at `T = [0, 5, 9]`, `o = 7`. -/
theorem C1_witness :
    FastaUtils.get_name_offset 7 [0, 5, 9] ∈ [0, 5, 9] ∧
    FastaUtils.get_name_offset 7 [0, 5, 9] ≤ 7 ∧
    (∀ x ∈ [0, 5, 9], x ≤ 7 → x ≤ FastaUtils.get_name_offset 7 [0, 5, 9]) := by
  have h := C1_get_name_offset_greatest_le [0, 5, 9] 7 (by decide)
    (by decide) (by decide)
  exact ⟨h.1, h.2.1, h.2.2.1⟩

/-- C6: repetition expansion: `{m,n}` yields exactly `m` mandatory copies
followed by `n − m` optional (`?`-suffixed) copies; `{m,}` yields `m`
mandatory copies plus one unbounded-repeat (`*`-suffixed) marker; `{,n}`
yields exactly `n` optional copies; and `{m,m}` yields exactly `m`
mandatory copies with no optional suffix. -/
theorem C6_repetition_expansion (p : List Char) (m n : Nat) (_hmn : m ≤ n) :
    PatternConverter.expand_repeat
        (PatternConverter.natDigits m ++ ',' :: PatternConverter.natDigits n) p
      = (List.replicate m p).flatten
          ++ (List.replicate (n - m) (p ++ ['?'])).flatten ∧
    PatternConverter.expand_repeat (PatternConverter.natDigits m ++ [',']) p
      = (List.replicate m p).flatten ++ (p ++ ['*']) ∧
    PatternConverter.expand_repeat (',' :: PatternConverter.natDigits n) p
      = (List.replicate n (p ++ ['?'])).flatten ∧
    PatternConverter.expand_repeat
        (PatternConverter.natDigits m ++ ',' :: PatternConverter.natDigits m) p
      = (List.replicate m p).flatten := by
  refine ⟨?_, ?_, ?_, ?_⟩
  · simp [PatternConverter.expand_repeat, PatternConverter.parse_mn,
      PatternConverter.build_repeat_nat]
  · simp [PatternConverter.expand_repeat, PatternConverter.parse_m_inf,
      PatternConverter.build_repeat_inf]
  · have h0 : ((0 : Int) = ((0 : Nat) : Int)) := by norm_num
    simp only [PatternConverter.expand_repeat, PatternConverter.parse_comma_n, h0,
      PatternConverter.build_repeat_nat]
    simp
  · simp [PatternConverter.expand_repeat, PatternConverter.parse_mn,
      PatternConverter.build_repeat_nat]

/-- Witness for C6 at `m = 2`, `n = 4`, unit `p = ['A']`. -/
theorem C6_witness :
    (2 : Nat) ≤ 4 ∧
    (PatternConverter.expand_repeat
        (PatternConverter.natDigits 2 ++ ',' :: PatternConverter.natDigits 4) ['A']
      = (List.replicate 2 ['A']).flatten
          ++ (List.replicate (4 - 2) (['A'] ++ ['?'])).flatten ∧
    PatternConverter.expand_repeat (PatternConverter.natDigits 2 ++ [',']) ['A']
      = (List.replicate 2 ['A']).flatten ++ (['A'] ++ ['*']) ∧
    PatternConverter.expand_repeat (',' :: PatternConverter.natDigits 4) ['A']
      = (List.replicate 4 (['A'] ++ ['?'])).flatten ∧
    PatternConverter.expand_repeat
        (PatternConverter.natDigits 2 ++ ',' :: PatternConverter.natDigits 2) ['A']
      = (List.replicate 2 ['A']).flatten) :=
  ⟨by decide, C6_repetition_expansion ['A'] 2 4 (by decide)⟩

/-- C10: for a pattern that starts with `<` and ends with `>`,
`run_patmatch` sets only the begin-anchor flag and strips the `<`
characters; the end-anchor flag stays `0` and the trailing `>` remains in
the pattern handed to conversion.  Moreover the end-anchor flag is ever
set only for patterns that do not start with `<`. -/
theorem C10_run_patmatch_both_anchors (p : List Char)
    (h1 : p.head? = some '<') (h2 : p.getLast? = some '>') :
    PatmatchService.run_patmatch_anchors p = (1, 0, p.filter (· ≠ '<')) ∧
    (p.filter (· ≠ '<')).getLast? = some '>' ∧
    ∀ q : List Char, (PatmatchService.run_patmatch_anchors q).2.1 = 1 →
      q.head? ≠ some '<' := by
  refine ⟨by rw [PatmatchService.run_patmatch_anchors, if_pos h1], ?_, ?_⟩
  · obtain ⟨l', hl'⟩ := PatmatchService.exists_concat_of_getLast h2
    rw [hl', List.filter_append]
    simp
  · intro q hq hhead
    rw [PatmatchService.run_patmatch_anchors, if_pos hhead] at hq
    simp at hq

/-- Witness for C10 at `p = "<AC>"`. -/
theorem C10_witness :
    (['<','A','C','>'] : List Char).head? = some '<' ∧
    (['<','A','C','>'] : List Char).getLast? = some '>' ∧
    (PatmatchService.run_patmatch_anchors ['<','A','C','>']
        = (1, 0, (['<','A','C','>'] : List Char).filter (· ≠ '<')) ∧
      ((['<','A','C','>'] : List Char).filter (· ≠ '<')).getLast? = some '>' ∧
      ∀ q : List Char, (PatmatchService.run_patmatch_anchors q).2.1 = 1 →
        q.head? ≠ some '<') :=
  ⟨by decide, by decide,
    C10_run_patmatch_both_anchors ['<','A','C','>'] (by decide) (by decide)⟩

/-- C4: with `maxErrors = 0` the approximate matcher returns exactly the
same match spans (start, end, matched text) as exact matching of the
expanded pattern on that text, for every pattern, every text and every
behaviour of the underlying regex engine. -/
theorem C4_zero_errors_exact
    (finditer : List Char → List Char → Option (List FuzzyMatcher.MatchResult))
    (m : FuzzyMatcher.Matcher) (pattern text : List Char) (byte_offset : Nat)
    (h0 : m.max_errors = 0) :
    FuzzyMatcher.search finditer m pattern text byte_offset
      = FuzzyMatcher.exact_search finditer pattern text byte_offset := by
  have hbuild : FuzzyMatcher.build_fuzzy_pattern m pattern = pattern := by
    rw [FuzzyMatcher.build_fuzzy_pattern, if_pos h0]
  rw [FuzzyMatcher.search, FuzzyMatcher.exact_search]
  simp only [hbuild]
  cases finditer pattern text <;> rfl

/-- Witness for C4 with a one-match engine on pattern `"A"`. -/
theorem C4_witness :
    (FuzzyMatcher.Matcher.mk 0 true true true true).max_errors = 0 ∧
    FuzzyMatcher.search (fun p _ => some [⟨0, p.length, p⟩])
        (FuzzyMatcher.Matcher.mk 0 true true true true) ['A'] ['A', 'C'] 3
      = FuzzyMatcher.exact_search (fun p _ => some [⟨0, p.length, p⟩])
          ['A'] ['A', 'C'] 3 :=
  ⟨rfl, C4_zero_errors_exact (fun p _ => some [⟨0, p.length, p⟩])
    (FuzzyMatcher.Matcher.mk 0 true true true true) ['A'] ['A', 'C'] 3 rfl⟩

/-- C9: `search` never raises: when the fuzzy-compiled pattern cannot be
compiled by the engine (`finditer` returns `none` on it), the matcher
falls back to exact matching of the original pattern and returns a
(possibly empty) result list — in particular `[]` when that also fails. -/
theorem C9_search_fallback
    (finditer : List Char → List Char → Option (List FuzzyMatcher.MatchResult))
    (m : FuzzyMatcher.Matcher) (pattern text : List Char) (byte_offset : Nat)
    (hfail : finditer (FuzzyMatcher.build_fuzzy_pattern m pattern) text = none) :
    FuzzyMatcher.search finditer m pattern text byte_offset
      = FuzzyMatcher.exact_search finditer pattern text byte_offset := by
  rw [FuzzyMatcher.search, FuzzyMatcher.exact_search]
  simp only [hfail]

/-- Witness for C9 with an engine that rejects every pattern. -/
theorem C9_witness :
    (fun (_ _ : List Char) => (none : Option (List FuzzyMatcher.MatchResult)))
        (FuzzyMatcher.build_fuzzy_pattern
          (FuzzyMatcher.Matcher.mk 2 true true true true) ['A']) ['G'] = none ∧
    FuzzyMatcher.search (fun _ _ => none)
        (FuzzyMatcher.Matcher.mk 2 true true true true) ['A'] ['G'] 0
      = FuzzyMatcher.exact_search (fun _ _ => none) ['A'] ['G'] 0 :=
  ⟨rfl, C9_search_fallback (fun _ _ => none)
    (FuzzyMatcher.Matcher.mk 2 true true true true) ['A'] ['G'] 0 rfl⟩

/-- C2: refuted as stated: with enzyme `DupEnz` (pattern `GG`, offset 1,
overhang 0) on the 10-residue sequence `AAGGAAGGAA`, the cut-site set is
non-empty (Watson hits at 3 and 7), but the ordered fragment-size list is
`[3, 4]` — the second fragment of size 3 is skipped as a duplicate — so
the sizes sum to 7, not to the sequence length 10. -/
theorem C2_counterexample :
    RestrictionService.search_pattern ('G' :: ['G']) ("AAGGAAGGAA".toList) true ≠ [] ∧
    ("AAGGAAGGAA".toList).length = 10 ∧
    ((RestrictionService.run_restriction_search ("AAGGAAGGAA".toList) ("all".toList)
        [RestrictionService.EnzymeInfo.mk ("DupEnz".toList) 1 ('G' :: ['G']) 0]
        (fun _ => [])).1.map
      (fun kv => kv.2.fragment_size_in_real_order)) = [[3, 4]] ∧
    ((RestrictionService.run_restriction_search ("AAGGAAGGAA".toList) ("all".toList)
        [RestrictionService.EnzymeInfo.mk ("DupEnz".toList) 1 ('G' :: ['G']) 0]
        (fun _ => [])).1.map
      (fun kv => kv.2.fragment_size_in_real_order.sum)) = [7] := by
  decide

/-- C2 (amended): for any cut-site set whose positions lie in
`[0, seqLen]`, the ordered fragment-size list sums to the sequence length
provided the nonzero consecutive differences of the sorted cut positions
(with the sequence length appended as terminal boundary) are pairwise
distinct; when two fragments share a size the duplicate is skipped and
the sum falls short of `seqLen`. -/
theorem C2_amended_fragment_sum (cuts : List Int) (seqLen : Int)
    (hb : ∀ c ∈ cuts, 0 ≤ c ∧ c ≤ seqLen)
    (hnd : ((RestrictionService.consec_diffs 0
        (List.insertionSort (fun a b => a ≤ b) (cuts ++ [seqLen]))).filter
          (· ≠ 0)).Nodup) :
    (RestrictionService.cut_fragments (cuts ++ [seqLen])).sum = seqLen := by
  rw [RestrictionService.cut_fragments]
  set S := List.insertionSort (fun a b => a ≤ b) (cuts ++ [seqLen]) with hS
  have hsum := RestrictionService.cut_fragments_aux_sum S 0 [] [] hnd
    (by intro d _ hd; simp at hd)
  rw [hsum, RestrictionService.consec_diffs_sum]
  have hperm : S.Perm (cuts ++ [seqLen]) := List.perm_insertionSort _ _
  have hsorted : S.Sorted (· ≤ ·) := List.sorted_insertionSort _ _
  have hne : S ≠ [] := by
    intro h
    have := hperm.length_eq
    rw [h] at this
    simp at this
  have hmemS : seqLen ∈ S := hperm.mem_iff.mpr (by simp)
  have h1 : seqLen ≤ S.getLastD 0 := by
    have := RestrictionService.sorted_le_getLastD S hsorted 0 seqLen hmemS
    exact this
  have h2 : S.getLastD 0 ≤ seqLen := by
    have hmem := RestrictionService.getLastD_mem S 0 hne
    have hmem' : S.getLastD 0 ∈ cuts ++ [seqLen] := hperm.mem_iff.mp hmem
    rcases List.mem_append.mp hmem' with h | h
    · exact (hb _ h).2
    · rw [List.mem_singleton] at h
      omega
  have heq : S.getLastD 0 = seqLen := le_antisymm h2 h1
  rw [heq]
  simp

/-- Witness for C2 (amended) at a single cut site 3 with `seqLen = 10`. -/
theorem C2_amended_witness :
    (∀ c ∈ [(3 : Int)], 0 ≤ c ∧ c ≤ 10) ∧
    (RestrictionService.cut_fragments ([3] ++ [10])).sum = 10 :=
  ⟨by decide, C2_amended_fragment_sum [3] 10 (by decide) (by decide)⟩

/-- C7: refuted as stated: for the enzyme class selection `"cut once"`,
enzyme `Fake` (pattern `GG`) has zero hits on both strands of `AAAA`,
yet `enzymesWithNoCut` comes back empty — zero-hit enzymes are collected
only for the `all`/empty/`enzymes that do not cut` selections. -/
theorem C7_counterexample :
    RestrictionService.search_pattern ("GG".toList) ("AAAA".toList) true = [] ∧
    (RestrictionService.run_restriction_search ("AAAA".toList)
        ("cut once".toList)
        [RestrictionService.EnzymeInfo.mk ("Fake".toList) 1 ("GG".toList) 0]
        (fun _ => [])).2 = [] := by
  decide

/-- C7 (amended): an enzyme whose recognition-pattern search yields zero
hits on both strands never appears in the enzyme results map, and it
appears in `enzymesWithNoCut` whenever the enzyme class selection is
`all`, empty, or an `enzymes that do not cut` selection (for other
selections zero-hit enzymes are not collected). -/
theorem C7_no_cut_classification
    (sequence enzyme_type : List Char)
    (enzymes : List RestrictionService.EnzymeInfo)
    (etm : List Char → List Char) (e : RestrictionService.EnzymeInfo)
    (he : e ∈ enzymes)
    (hz : ∀ e' ∈ enzymes, e'.name = e.name →
      RestrictionService.search_pattern e'.pattern sequence true = []) :
    (RestrictionService.collects_no_cut enzyme_type →
      e.name ∈ (RestrictionService.run_restriction_search sequence enzyme_type
        enzymes etm).2) ∧
    e.name ∉ ((RestrictionService.run_restriction_search sequence enzyme_type
        enzymes etm).1.map Prod.fst) := by
  rw [RestrictionService.run_restriction_search]
  set F := enzymes.foldl (RestrictionService.search_step sequence enzyme_type)
    (RestrictionService.SearchAccum.mk [] [] [] [] []) with hF
  have hnotdata : e.name ∉ F.data_hash.map Prod.fst := by
    rw [hF]
    exact RestrictionService.foldl_search_step_data_keys_not_mem sequence
      enzyme_type e.name enzymes _ (by simp) hz
  constructor
  · intro hc
    have hmem : e.name ∈ F.not_cut_enzymes := by
      rw [hF]
      exact RestrictionService.foldl_search_step_not_cut_mem sequence
        enzyme_type hc enzymes _ e he (hz e he rfl)
    have hperm := List.perm_insertionSort
      (fun a b => RestrictionService.lex_le a b = true) F.not_cut_enzymes
    split
    · exact hperm.mem_iff.mpr hmem
    · exact hperm.mem_iff.mpr hmem
  · split
    · simp
    · intro hmemdata
      set DH := if RestrictionService.contains_sub ['c','u','t'] enzyme_type then
          RestrictionService.cut_filter
            (if RestrictionService.contains_sub ['t','w','i','c','e'] enzyme_type
              then 2 else 1) F.data_hash
        else F.data_hash with hDH
      have hkeys := RestrictionService.data_build_keys_subset
        (sequence.length : Int) { F with data_hash := DH } enzyme_type etm
        (List.insertionSort (fun a b => RestrictionService.lex_le a b = true)
          (DH.map Prod.fst)) e.name hmemdata
      have hmem2 : e.name ∈ DH.map Prod.fst :=
        (List.perm_insertionSort
          (fun a b => RestrictionService.lex_le a b = true)
          (DH.map Prod.fst)).mem_iff.mp hkeys
      have hmem3 : e.name ∈ F.data_hash.map Prod.fst := by
        rw [hDH] at hmem2
        revert hmem2
        split
        · intro hmem2
          exact RestrictionService.cut_filter_keys_subset _ _ _ hmem2
        · intro hmem2
          exact hmem2
      exact hnotdata hmem3

/-- Witness for C7 (amended): enzyme `Fake` (pattern `GG`) on `AAAA` with
selection `all`. -/
theorem C7_witness :
    (RestrictionService.EnzymeInfo.mk ("Fake".toList) 1 ("GG".toList) 0
      ∈ [RestrictionService.EnzymeInfo.mk ("Fake".toList) 1 ("GG".toList) 0]) ∧
    RestrictionService.collects_no_cut ("all".toList) ∧
    ("Fake".toList ∈ (RestrictionService.run_restriction_search ("AAAA".toList)
        ("all".toList)
        [RestrictionService.EnzymeInfo.mk ("Fake".toList) 1 ("GG".toList) 0]
        (fun _ => [])).2) ∧
    ("Fake".toList ∉ ((RestrictionService.run_restriction_search ("AAAA".toList)
        ("all".toList)
        [RestrictionService.EnzymeInfo.mk ("Fake".toList) 1 ("GG".toList) 0]
        (fun _ => [])).1.map Prod.fst)) := by
  have h := C7_no_cut_classification ("AAAA".toList) ("all".toList)
    [RestrictionService.EnzymeInfo.mk ("Fake".toList) 1 ("GG".toList) 0]
    (fun _ => [])
    (RestrictionService.EnzymeInfo.mk ("Fake".toList) 1 ("GG".toList) 0)
    (by decide) (by decide)
  exact ⟨by decide, by decide, h.1 (by decide), h.2⟩

/-- C3: refuted as stated: with `maxHits = 2` and five qualifying spans on
five distinct records, the post-processor returns exactly 2 hit records
and `totalCount = 2`, but `uniqueCount = 3` — the unique-hit counter is
incremented for the cutoff span before the `break` fires — so
"uniqueCount ≤ 2" fails. -/
theorem C3_counterexample :
    (∀ s ∈ [((3:Nat),(5:Nat),"AC".toList),(23,25,"AC".toList),
        (43,45,"AC".toList),(63,65,"AC".toList),(83,85,"AC".toList)],
      PatmatchService.qualifies [0,3,20,23,40,43,60,63,80,83]
        [(0, ">a1".toList), (3, "a1".toList), (20, ">a2".toList),
         (23, "a2".toList), (40, ">a3".toList), (43, "a3".toList),
         (60, ">a4".toList), (63, "a4".toList), (80, ">a5".toList),
         (83, "a5".toList)] [] 0 0 [] s) ∧
    (PatmatchService.process_output [0,3,20,23,40,43,60,63,80,83]
        [(0, ">a1".toList), (3, "a1".toList), (20, ">a2".toList),
         (23, "a2".toList), (40, ">a3".toList), (43, "a3".toList),
         (60, ">a4".toList), (63, "a4".toList), (80, ">a5".toList),
         (83, "a5".toList)]
        [] [] [] 2 0 0
        [(3,5,"AC".toList),(23,25,"AC".toList),(43,45,"AC".toList),
         (63,65,"AC".toList),(83,85,"AC".toList)]).1.length = 2 ∧
    (PatmatchService.process_output [0,3,20,23,40,43,60,63,80,83]
        [(0, ">a1".toList), (3, "a1".toList), (20, ">a2".toList),
         (23, "a2".toList), (40, ">a3".toList), (43, "a3".toList),
         (60, ">a4".toList), (63, "a4".toList), (80, ">a5".toList),
         (83, "a5".toList)]
        [] [] [] 2 0 0
        [(3,5,"AC".toList),(23,25,"AC".toList),(43,45,"AC".toList),
         (63,65,"AC".toList),(83,85,"AC".toList)]).2.2 = 2 ∧
    (PatmatchService.process_output [0,3,20,23,40,43,60,63,80,83]
        [(0, ">a1".toList), (3, "a1".toList), (20, ">a2".toList),
         (23, "a2".toList), (40, ">a3".toList), (43, "a3".toList),
         (60, ">a4".toList), (63, "a4".toList), (80, ">a5".toList),
         (83, "a5".toList)]
        [] [] [] 2 0 0
        [(3,5,"AC".toList),(23,25,"AC".toList),(43,45,"AC".toList),
         (63,65,"AC".toList),(83,85,"AC".toList)]).2.1 = 3 := by
  decide

/-- C3 (amended): when `maxHits` qualifying spans or more arrive (in
particular 5 spans with `maxHits = 2`), the post-processor returns exactly
`maxHits` hit records, `totalCount = maxHits`, and `uniqueCount ≤
maxHits + 1` (the span at which the cutoff triggers may count one extra
unique record before the break); no matches are accepted after
`totalCount` reaches `maxHits`. -/
theorem C3_amended_maxhits_cutoff
    (T : List Nat) (names : List (Nat × List Char))
    (excls : List (Option Nat × List Char)) (beg_match end_match : Nat)
    (lengths : List (List Char × Int))
    (name_to_data : List (List Char × (List Char × List Char × List Char)))
    (maxhits : Nat) (spans : List (Nat × Nat × List Char))
    (Hq : ∀ s ∈ spans,
      PatmatchService.qualifies T names excls beg_match end_match lengths s)
    (Hspans : ∀ s ∈ spans, '\t' ∉ s.2.2)
    (Hnames : ∀ kv ∈ names, '\t' ∉ kv.2)
    (Hntd : ∀ kv ∈ name_to_data,
      '\t' ∉ kv.2.1 ∧ '\t' ∉ kv.2.2.1 ∧ '\t' ∉ kv.2.2.2)
    (hpos : 0 < maxhits) (hlen : maxhits ≤ spans.length) :
    (PatmatchService.process_output T names excls lengths name_to_data
        maxhits beg_match end_match spans).1.length = maxhits ∧
    (PatmatchService.process_output T names excls lengths name_to_data
        maxhits beg_match end_match spans).2.2 = maxhits ∧
    (PatmatchService.process_output T names excls lengths name_to_data
        maxhits beg_match end_match spans).2.1 ≤ maxhits + 1 := by
  obtain ⟨extra, hdata, htotal, hextra, hunique, hgood⟩ :=
    PatmatchService.process_spans_run T names excls beg_match end_match
      lengths name_to_data maxhits Hnames Hntd spans
      (PatmatchService.LoopState.mk [] 0 0 []) Hq Hspans (by simpa using hpos)
  rw [PatmatchService.process_output]
  dsimp only
  set F := PatmatchService.process_spans T names excls beg_match end_match
    lengths name_to_data maxhits spans (PatmatchService.LoopState.mk [] 0 0 [])
    with hF
  simp only at hdata htotal hextra hunique
  have hd : F.data = extra := by simpa using hdata
  have ht : F.total_hits = maxhits := by omega
  have hel : extra.length = maxhits := by omega
  refine ⟨?_, ht, ?_⟩
  · have hperm := List.perm_insertionSort
      (fun a b => RestrictionService.lex_le a b = true) F.data
    have hgood' : ∀ r ∈ List.insertionSort
        (fun a b => RestrictionService.lex_le a b = true) F.data,
        PatmatchService.good_row r := by
      intro r hr
      refine hgood r ?_
      rw [← hd]
      exact hperm.mem_iff.mp hr
    rw [PatmatchService.filterMap_length_of_good _ _ hgood',
      hperm.length_eq, hd, hel]
  · omega

/-- Witness for C3 (amended) at the 5-span, `maxHits = 2` scenario. -/
theorem C3_amended_witness :
    (PatmatchService.process_output [0,3,20,23,40,43,60,63,80,83]
        [(0, ">a1".toList), (3, "a1".toList), (20, ">a2".toList),
         (23, "a2".toList), (40, ">a3".toList), (43, "a3".toList),
         (60, ">a4".toList), (63, "a4".toList), (80, ">a5".toList),
         (83, "a5".toList)]
        [] [] [] 2 0 0
        [(3,5,"AC".toList),(23,25,"AC".toList),(43,45,"AC".toList),
         (63,65,"AC".toList),(83,85,"AC".toList)]).1.length = 2 ∧
    (PatmatchService.process_output [0,3,20,23,40,43,60,63,80,83]
        [(0, ">a1".toList), (3, "a1".toList), (20, ">a2".toList),
         (23, "a2".toList), (40, ">a3".toList), (43, "a3".toList),
         (60, ">a4".toList), (63, "a4".toList), (80, ">a5".toList),
         (83, "a5".toList)]
        [] [] [] 2 0 0
        [(3,5,"AC".toList),(23,25,"AC".toList),(43,45,"AC".toList),
         (63,65,"AC".toList),(83,85,"AC".toList)]).2.2 = 2 ∧
    (PatmatchService.process_output [0,3,20,23,40,43,60,63,80,83]
        [(0, ">a1".toList), (3, "a1".toList), (20, ">a2".toList),
         (23, "a2".toList), (40, ">a3".toList), (43, "a3".toList),
         (60, ">a4".toList), (63, "a4".toList), (80, ">a5".toList),
         (83, "a5".toList)]
        [] [] [] 2 0 0
        [(3,5,"AC".toList),(23,25,"AC".toList),(43,45,"AC".toList),
         (63,65,"AC".toList),(83,85,"AC".toList)]).2.1 ≤ 3 :=
  C3_amended_maxhits_cutoff [0,3,20,23,40,43,60,63,80,83]
    [(0, ">a1".toList), (3, "a1".toList), (20, ">a2".toList),
     (23, "a2".toList), (40, ">a3".toList), (43, "a3".toList),
     (60, ">a4".toList), (63, "a4".toList), (80, ">a5".toList),
     (83, "a5".toList)]
    [] 0 0 []
    [] 2
    [(3,5,"AC".toList),(23,25,"AC".toList),(43,45,"AC".toList),
     (63,65,"AC".toList),(83,85,"AC".toList)]
    (by decide) (by decide) (by decide) (by decide) (by decide) (by decide)

/-- C8: refuted as stated: the well-formed file `">a\n>b\n"` — two records
each with zero data lines, as the input constraint explicitly allows —
produces the offset list `[0, 3, 3, 6]`: offset 3 repeats (it is both the
data offset of record `a` and the header offset of record `b`), the list
is not strictly increasing, and the offset-to-name mapping has only three
keys for the four listed offsets. -/
theorem C8_counterexample :
    (∀ l ∈ [">a\n".toList, ">b\n".toList], l ≠ [] ∧ l.head? = some '>') ∧
    (FastaUtils.generate_sequence_index [">a\n".toList, ">b\n".toList]).1
      = [0, 3, 3, 6] ∧
    ¬ (FastaUtils.generate_sequence_index [">a\n".toList, ">b\n".toList]).1.Nodup ∧
    ¬ List.Sorted (· < ·)
      (FastaUtils.generate_sequence_index [">a\n".toList, ">b\n".toList]).1 ∧
    ¬ ((FastaUtils.generate_sequence_index [">a\n".toList, ">b\n".toList]).2.map
          Prod.fst
        = (FastaUtils.generate_sequence_index [">a\n".toList, ">b\n".toList]).1) := by
  decide

/-- C8 (amended): for every well-formed multi-record sequence file in
which no record-producing header line immediately follows another (every
record has at least one data line before the next record), the offset
list is strictly increasing — so no offset repeats — and the
offset-to-name mapping has exactly the listed offsets as keys, each
mapping to one record identifier. -/
theorem C8_amended_strict_index (lines : List (List Char))
    (hnz : ∀ l ∈ lines, l ≠ [])
    (hchain : List.Chain' (fun l1 l2 => FastaUtils.recordsHeader l1 →
      ¬ FastaUtils.recordsHeader l2) lines) :
    List.Sorted (· < ·) (FastaUtils.generate_sequence_index lines).1 ∧
    (FastaUtils.generate_sequence_index lines).1.Nodup ∧
    (FastaUtils.generate_sequence_index lines).2.map Prod.fst
      = (FastaUtils.generate_sequence_index lines).1 := by
  have h := FastaUtils.generate_sequence_index_aux_spec lines 0 [] [] hnz hchain
    (by simp) rfl (by simp) (by simp)
  rw [FastaUtils.generate_sequence_index]
  exact ⟨h.1, List.Pairwise.imp (fun hlt => ne_of_lt hlt) h.1, h.2⟩

/-- Witness for C8 (amended) on a two-record file with data lines. -/
theorem C8_amended_witness :
    (∀ l ∈ [">a\n".toList, "AC\n".toList, ">b\n".toList, "G\n".toList], l ≠ []) ∧
    (List.Sorted (· < ·) (FastaUtils.generate_sequence_index
        [">a\n".toList, "AC\n".toList, ">b\n".toList, "G\n".toList]).1 ∧
      (FastaUtils.generate_sequence_index
        [">a\n".toList, "AC\n".toList, ">b\n".toList, "G\n".toList]).1.Nodup ∧
      (FastaUtils.generate_sequence_index
          [">a\n".toList, "AC\n".toList, ">b\n".toList, "G\n".toList]).2.map
          Prod.fst
        = (FastaUtils.generate_sequence_index
            [">a\n".toList, "AC\n".toList, ">b\n".toList, "G\n".toList]).1) :=
  ⟨by decide, C8_amended_strict_index
    [">a\n".toList, "AC\n".toList, ">b\n".toList, "G\n".toList]
    (by decide)
    (by
      rw [List.chain'_cons, List.chain'_cons, List.chain'_cons]
      exact ⟨by decide, by decide, by decide, List.chain'_singleton _⟩)⟩

/-- C5: applying `_get_reverse_complement` twice to a well-formed nucleotide
pattern (optional `<` prefix anchor, body of plain characters, classes,
groups and repetitions, optional `>` suffix anchor) returns the original
pattern character for character, the anchors having been swapped twice and
thus restored. -/
theorem C5_reverse_complement_involution (p : List Char) (pre post : Bool)
    (ts : List PatternConverter.Tok) (hg : PatternConverter.goodListB ts = true)
    (hlt : '<' ∉ PatternConverter.encodeList ts) (hgt : '>' ∉ PatternConverter.encodeList ts)
    (hne : ts = [] → pre = post) (hp : p = PatternConverter.anchorWrap pre ts post) :
    PatternConverter.get_reverse_complement (PatternConverter.get_reverse_complement p) = p := by
  subst hp
  rw [PatternConverter.rc_wrap pre post ts hg hlt hgt hne]
  have hg1 : PatternConverter.goodListB (PatternConverter.ccList ts) = true := PatternConverter.good_ccList ts hg
  have hg2 : PatternConverter.goodListB (PatternConverter.revList (PatternConverter.ccList ts)) = true := PatternConverter.good_revList _ hg1
  obtain ⟨hlt1, hgt1⟩ := PatternConverter.not_anchor_ccList ts hlt hgt
  obtain ⟨hlt2, hgt2⟩ := PatternConverter.not_anchor_revList (PatternConverter.ccList ts) hlt1 hgt1
  have hne2 : PatternConverter.revList (PatternConverter.ccList ts) = [] → post = pre := fun h =>
    (hne ((PatternConverter.ccList_eq_nil_iff ts).mp ((PatternConverter.revList_eq_nil_iff (PatternConverter.ccList ts)).mp h))).symm
  rw [PatternConverter.rc_wrap post pre (PatternConverter.revList (PatternConverter.ccList ts)) hg2 hlt2 hgt2 hne2]
  rw [PatternConverter.rcrcList_of ts (fun u _ => PatternConverter.rcrcTok (PatternConverter.encodeTok u).length u le_rfl)]

/-- Concrete check of C5 on the anchored pattern `<A[AG](CT){2,3}>`. -/
theorem C5_witness :
    PatternConverter.get_reverse_complement (PatternConverter.get_reverse_complement
      ['<', 'A', '[', 'A', 'G', ']', '(', 'C', 'T', ')', '{', '2', ',',
       '3', '}', '>'])
      = ['<', 'A', '[', 'A', 'G', ']', '(', 'C', 'T', ')', '{', '2', ',',
         '3', '}', '>'] :=
  C5_reverse_complement_involution
    ['<', 'A', '[', 'A', 'G', ']', '(', 'C', 'T', ')', '{', '2', ',',
     '3', '}', '>'] true true
    [PatternConverter.Tok.ch 'A', PatternConverter.Tok.cls ['A', 'G'],
     PatternConverter.Tok.rep (PatternConverter.Tok.grp [PatternConverter.Tok.ch 'C', PatternConverter.Tok.ch 'T']) ['2', ',', '3']]
    (by decide) (by decide) (by decide) (fun _ => rfl) (by decide)
